import Mathlib

/-!
Verification of the exam-paper question-extraction pipeline.

The Python sources are shallowly embedded here:
* `fixQuestionNumbering` — `patched_extractor.AdvancedPDFExtractor._fix_question_numbering`
* `hierExtractMarks` — `hierarchical_extractor._extract_marks` (identical code in
  `patched_extractor._extract_marks`)
* `v2ExtractMarks`, `processLine`, `runExtract`, `mergeQuestions`, `saveQuestions`
  — `advanced_pdf_extractor_v2.AdvancedPDFExtractor`
* `processMatch` — `final_extractor_fixed.AdvancedQuestionExtractor._extract_questions_from_text`
  per-match processing (its helper functions `_clean_question_text`, `_extract_metadata`,
  `_determine_topic` are not present in the sources and are taken as parameters).

Strings are modelled as `List Char`.  The specific regular expressions of the sources
are hand-compiled to deterministic recursive functions; each of them is
backtracking-free because in every pattern the character class of a greedy
quantifier is disjoint from the set of first characters admissible for the
rest of the pattern, so the greedy parse is the unique parse.
-/

/-- Python `\s` / `str.strip()` whitespace (ASCII range, as in the inputs). -/
def pyIsSpace (c : Char) : Bool :=
  c = ' ' || c = '\t' || c = '\n' || c = '\r' || c = '\x0b' || c = '\x0c'

/-- Python `\w` (ASCII range). -/
def pyIsWord (c : Char) : Bool := c.isAlpha || c.isDigit || c = '_'

/-- Python `str.lower()` (ASCII range). -/
def lowerStr (cs : List Char) : List Char := cs.map Char.toLower

/-- Python `str.strip()`. -/
def pyStrip (cs : List Char) : List Char :=
  ((cs.dropWhile pyIsSpace).reverse.dropWhile pyIsSpace).reverse

/-- The character class `[a-z]`. -/
def isLowerAZ (c : Char) : Bool := 'a' ≤ c && c ≤ 'z'

/-- The character class `[A-Z]`. -/
def isUpperAZ (c : Char) : Bool := 'A' ≤ c && c ≤ 'Z'

/-- Decimal digit character for `d < 10` (used by `natDigits`). -/
def digitChar : Nat → Char
  | 0 => '0' | 1 => '1' | 2 => '2' | 3 => '3' | 4 => '4'
  | 5 => '5' | 6 => '6' | 7 => '7' | 8 => '8' | 9 => '9'
  | _ + 10 => '*'

/-- Fuel-driven decimal rendering (the fuel makes the kernel able to evaluate it;
`natDigitsAux (n+1) n` always has enough fuel). -/
def natDigitsAux : Nat → Nat → List Char
  | 0, _ => []
  | f + 1, n => if n < 10 then [digitChar n] else natDigitsAux f (n / 10) ++ [digitChar (n % 10)]

/-- Python `str(n)` for a natural number. -/
def natDigits (n : Nat) : List Char := natDigitsAux (n + 1) n

/-- Python `int(s)` on a digit string. -/
def readNat (ds : List Char) : Nat := ds.foldl (fun a c => 10 * a + (c.toNat - 48)) 0

/-- Python `needle in hay` substring test. -/
def containsSub (needle : List Char) : List Char → Bool
  | [] => needle.isEmpty
  | c :: rest => needle.isPrefixOf (c :: rest) || containsSub needle rest

/-- Keep the first occurrence of every element (Python `dict` key order);
`seen` accumulates the elements already kept. -/
def firstDedupAux {β : Type} [DecidableEq β] (seen : List β) : List β → List β
  | [] => []
  | k :: ks => if k ∈ seen then firstDedupAux seen ks else k :: firstDedupAux (k :: seen) ks

/-- First-occurrence deduplication. -/
def firstDedup {β : Type} [DecidableEq β] : List β → List β := firstDedupAux []

/-! ## `patched_extractor._fix_question_numbering` (lines 96–143)

A question record, for the purposes of `_fix_question_numbering`, is its
`question_number` string plus all its remaining fields, which the function never
touches; the untouched remainder is abstracted as a `payload` of arbitrary type. -/

structure PQ (α : Type) where
  number : List Char
  payload : α
deriving DecidableEq

/-- `re.match(r'(\d+)\.(?:\s*\(([a-z])\))?', s)`: a prefix match returning the
main number (group 1, via `int`) and the optional sub-part letter (group 2). -/
def parseQNum (cs : List Char) : Option (Nat × Option Char) :=
  let ds := cs.takeWhile Char.isDigit
  if ds.isEmpty then none
  else
    match cs.dropWhile Char.isDigit with
    | [] => none
    | c :: rest =>
      if c = '.' then
        let m := readNat ds
        -- optional group `(?:\s*\(([a-z])\))?`
        match rest.dropWhile pyIsSpace with
        | c1 :: c2 :: c3 :: _ =>
          if c1 = '(' ∧ c3 = ')' ∧ isLowerAZ c2 then some (m, some c2) else some (m, none)
        | _ => some (m, none)
      else none

/-- A parsed record: main number, optional sub-part letter, the record itself. -/
abbrev QTag (α : Type) := Nat × Option Char × PQ α

/-- Tag a record with its parsed number, dropping records whose
`question_number` does not match the pattern (as the Python loop does). -/
def parseTag {α : Type} (q : PQ α) : Option (QTag α) :=
  (parseQNum q.number).map fun mp => (mp.1, mp.2, q)

/-- Python string comparison of sub-part keys: `x[0] if x[0] else ""`,
i.e. the empty string sorts before every letter. -/
def subKeyLe : Option Char → Option Char → Bool
  | none, _ => true
  | some _, none => false
  | some x, some y => x ≤ y

/-- Sort key relation used for `sorted(group, key=lambda x: x[0] if x[0] else "")`. -/
def tagLe {α : Type} (a b : QTag α) : Prop := subKeyLe a.2.1 b.2.1 = true

instance {α : Type} : DecidableRel (tagLe (α := α)) := fun a b => by
  unfold tagLe; infer_instance

/-- `f"{n}."` or `f"{n}. ({p})"`. -/
def renderQNum (n : Nat) (p : Option Char) : List Char :=
  natDigits n ++ '.' :: (match p with | none => [] | some c => [' ', '(', c, ')'])

/-- Overwrite a record's `question_number` with its renumbered form. -/
def renumQ {α : Type} (n : Nat) (t : QTag α) : PQ α :=
  { t.2.2 with number := renderQNum n t.2.1 }

/-- The `for _, group in sorted_groups` loop: for each key, sort its group's
members by sub-part letter (Python's `sorted` is stable; a stable sort under a
total preorder is unique, so `insertionSort` models it exactly), renumber them
with the running counter, and concatenate. -/
def renumberGroups {α : Type} (parsed : List (QTag α)) : List Nat → Nat → List (PQ α)
  | [], _ => []
  | k :: ks, n =>
    (List.insertionSort tagLe (parsed.filter fun t => t.1 == k)).map (renumQ n)
      ++ renumberGroups parsed ks (n + 1)

/-- The tag list of the output of `renumberGroups` (specification device for
the idempotence proof): the `i`-th group's members, sorted, tagged with the new
number `n + i`. -/
def renumTags {α : Type} (parsed : List (QTag α)) : List Nat → Nat → List (QTag α)
  | [], _ => []
  | k :: ks, n =>
    (List.insertionSort tagLe (parsed.filter fun t => t.1 == k)).map
      (fun t => (n, t.2.1, renumQ n t))
      ++ renumTags parsed ks (n + 1)

/-- `_fix_question_numbering`: group records by parsed main number (dict,
first-insertion key order), sort the groups by key (`sorted(question_groups.items())`;
since the keys are distinct the sorted key list is independent of insertion
order), then renumber sequentially from 1. -/
def fixQuestionNumbering {α : Type} (qs : List (PQ α)) : List (PQ α) :=
  let parsed := qs.filterMap parseTag
  renumberGroups parsed (List.insertionSort (· ≤ ·) (firstDedup (parsed.map (·.1)))) 1

/-- The sequence of parsed main numbers of a list of records. -/
def mainsOf {α : Type} (qs : List (PQ α)) : List Nat :=
  qs.filterMap fun q => (parseQNum q.number).map (·.1)

/-- The payload sequence, used to state order preservation. -/
def payloadsOf {α : Type} (qs : List (PQ α)) : List α := qs.map (·.payload)

/-! ## `advanced_pdf_extractor_v2._extract_marks` (lines 111–121)

`re.search(r"(?:marks?[:\s]*|\s)\[?(\d+)\]?\s*$", text, re.IGNORECASE)`;
returns `int(group(1))` on a match, `None` otherwise. -/

/-- `\]?\s*$` after the digit group.  Python's `$` matches at the end of the
string or just before one final newline; both cases coincide with
"the whole remainder is whitespace" once the optional `]` is consumed
(a final `\n` is itself `\s`). -/
def v2TailOK : List Char → Bool
  | [] => true
  | c :: rest => if c = ']' then rest.all pyIsSpace else (c :: rest).all pyIsSpace

/-- `(\d+)\]?\s*$` starting at the current position. -/
def v2AfterDigits (cs : List Char) : Option Nat :=
  let ds := cs.takeWhile Char.isDigit
  if ds.isEmpty then none
  else if v2TailOK (cs.dropWhile Char.isDigit) then some (readNat ds) else none

/-- `\[?(\d+)\]?\s*$` starting at the current position. -/
def v2OptBracket : List Char → Option Nat
  | [] => v2AfterDigits []
  | c :: rest => if c = '[' then v2AfterDigits rest else v2AfterDigits (c :: rest)

/-- The optional `s?` after the literal `mark` (case-insensitive). -/
def v2OptS : List Char → List Char
  | [] => []
  | c :: rest => if c.toLower = 's' then rest else c :: rest

/-- The first alternation branch `marks?[:\s]*` followed by `\[?(\d+)\]?\s*$`. -/
def v2Branch1 (cs : List Char) : Option Nat :=
  if lowerStr (cs.take 4) = "mark".data then
    v2OptBracket ((v2OptS (cs.drop 4)).dropWhile fun c => c = ':' || pyIsSpace c)
  else none

/-- The second alternation branch `\s` followed by `\[?(\d+)\]?\s*$`. -/
def v2Branch2 : List Char → Option Nat
  | [] => none
  | c :: rest => if pyIsSpace c then v2OptBracket rest else none

/-- One attempt of the whole pattern at the current position: the alternation
`(?:marks?[:\s]*|\s)` (branch order as in the pattern; the two branches have
disjoint first characters) followed by `\[?(\d+)\]?\s*$`. -/
def v2TryAt (cs : List Char) : Option Nat :=
  v2Branch1 cs <|> v2Branch2 cs

/-- `advanced_pdf_extractor_v2._extract_marks`: `re.search` scans start
positions left to right. -/
def v2ExtractMarks : List Char → Option Nat
  | [] => none
  | c :: rest => v2TryAt (c :: rest) <|> v2ExtractMarks rest

/-! ## `hierarchical_extractor._extract_marks` (lines 328–353)

Identical code also appears as `patched_extractor._extract_marks` (lines 410–435).
First `re.search(r'(\d+)\s*marks?', text, re.IGNORECASE)`, then
`re.search(r'\((\d+)\)', text)`, else the documented default `1`. -/

/-- `(\d+)\s*marks?` at the current position (the trailing `s?` does not affect
whether a match exists, so only the mandatory `mark` is checked). -/
def hierTry1 (cs : List Char) : Option Nat :=
  let ds := cs.takeWhile Char.isDigit
  if ds.isEmpty then none
  else if lowerStr (((cs.dropWhile Char.isDigit).dropWhile pyIsSpace).take 4) = "mark".data then
    some (readNat ds)
  else none

/-- Leftmost search for `(\d+)\s*marks?`. -/
def hierSearch1 : List Char → Option Nat
  | [] => none
  | c :: rest => hierTry1 (c :: rest) <|> hierSearch1 rest

/-- `\((\d+)\)` at the current position. -/
def hierTry2 : List Char → Option Nat
  | '(' :: rest =>
    let ds := rest.takeWhile Char.isDigit
    if ds.isEmpty then none
    else
      match rest.dropWhile Char.isDigit with
      | ')' :: _ => some (readNat ds)
      | _ => none
  | _ => none

/-- Leftmost search for `\((\d+)\)`. -/
def hierSearch2 : List Char → Option Nat
  | [] => none
  | c :: rest => hierTry2 (c :: rest) <|> hierSearch2 rest

/-- `hierarchical_extractor._extract_marks` (= `patched_extractor._extract_marks`). -/
def hierExtractMarks (cs : List Char) : Nat :=
  match hierSearch1 cs with
  | some m => m
  | none =>
    match hierSearch2 cs with
    | some m => m
    | none => 1

/-! ## A small pattern language for the fixed noise regexes of
`advanced_pdf_extractor_v2._clean_text` (lines 60–109)

Each noise regex is a sequence of: a case-insensitive literal, `\d+`, `\d`,
`\w+`, an optional single character, and the MULTILINE anchors `^`/`$`.
All quantifiers are safely greedy (the following item never starts with a
character of the quantifier's class). -/

inductive PatItem : Type
  | lit (s : List Char)   -- case-insensitive literal (stored lowercase)
  | digits                -- \d+
  | digit                 -- \d
  | word                  -- \w+
  | optC (c : Char)       -- c?
  | bol                   -- ^ (MULTILINE)
  | eol                   -- $ (MULTILINE)

/-- Try a pattern at the current position; `atBol` says whether the position is
the string start or just after a newline.  Returns the number of characters
consumed. -/
def tryPat : List PatItem → Bool → List Char → Option Nat
  | [], _, _ => some 0
  | .bol :: ps, atBol, cs => if atBol then tryPat ps atBol cs else none
  | .eol :: ps, atBol, cs =>
    match cs with
    | [] => tryPat ps atBol []
    | '\n' :: _ => tryPat ps atBol cs
    | _ => none
  | .lit s :: ps, atBol, cs =>
    if cs.length < s.length then none
    else if lowerStr (cs.take s.length) = s then
      (tryPat ps atBol (cs.drop s.length)).map (· + s.length)
    else none
  | .digits :: ps, atBol, cs =>
    let ds := cs.takeWhile Char.isDigit
    if ds.isEmpty then none
    else (tryPat ps atBol (cs.dropWhile Char.isDigit)).map (· + ds.length)
  | .digit :: ps, atBol, cs =>
    match cs with
    | c :: rest => if c.isDigit then (tryPat ps atBol rest).map (· + 1) else none
    | [] => none
  | .word :: ps, atBol, cs =>
    let ws := cs.takeWhile pyIsWord
    if ws.isEmpty then none
    else (tryPat ps atBol (cs.dropWhile pyIsWord)).map (· + ws.length)
  | .optC c :: ps, atBol, cs =>
    match cs with
    | d :: rest => if d = c then (tryPat ps atBol rest).map (· + 1) else tryPat ps atBol cs
    | [] => tryPat ps atBol []

/-- `re.sub(pattern, "", text)`: scan positions left to right, delete each
(non-empty; every noise pattern contains a mandatory literal) match and resume
after it.  The fuel is an upper bound on the number of scan steps
(`length + 1` always suffices since every step consumes at least one character). -/
def scanSubAux (p : List PatItem) : Nat → Bool → List Char → List Char
  | 0, _, cs => cs
  | _ + 1, _, [] => []
  | fuel + 1, atBol, c :: rest =>
    match tryPat p atBol (c :: rest) with
    | some (k + 1) =>
      scanSubAux p fuel (((c :: rest).take (k + 1)).getLast? == some '\n')
        ((c :: rest).drop (k + 1))
    | _ => c :: scanSubAux p fuel (c = '\n') rest

/-- `re.sub(pattern, "", text)` over the whole string. -/
def scanSub (p : List PatItem) (cs : List Char) : List Char :=
  scanSubAux p (cs.length + 1) true cs

/-- Replace every occurrence of the character `c` by the string `r`
(the symbol-map keys are single characters). -/
def replaceChar (c : Char) (r : List Char) (cs : List Char) : List Char :=
  cs.flatMap fun x => if x = c then r else [x]

/-- Collapse every run of two or more `p`-characters into the single
character `r`, keeping lone `p`-characters as they are
(`re.sub(r"\s{2,}", " ", ·)` and `re.sub(r"\n{2,}", "\n", ·)`). -/
def collapseRunsAux (p : Char → Bool) (r : Char) : Bool → List Char → List Char
  | _, [] => []
  | inRun, c :: rest =>
    if p c then
      if inRun then collapseRunsAux p r true rest
      else
        match rest with
        | d :: _ =>
          if p d then r :: collapseRunsAux p r true rest
          else c :: collapseRunsAux p r false rest
        | [] => [c]
    else c :: collapseRunsAux p r false rest

/-- See `collapseRunsAux`. -/
def collapseRuns (p : Char → Bool) (r : Char) (cs : List Char) : List Char :=
  collapseRunsAux p r false cs

/-- The noise patterns of `_clean_text`, in source order (literals lowercase,
matching `re.IGNORECASE`). -/
def noisePatterns : List (List PatItem) :=
  [ [.lit ("*x".data), .digits, .lit ("/".data), .digits, .lit ("*".data)],
    [.lit ("do not write in this margin".data)],
    [.lit ("page ".data), .digits, .lit (" of ".data), .digits],
    [.lit ("(page ".data), .digits, .lit (")".data)],
    [.bol, .optC '[', .lit ("turn over".data), .optC ']', .eol],
    [.bol, .optC '[', .lit ("end of question paper".data), .optC ']', .eol],
    [.bol, .optC '[', .lit ("formulae list".data), .optC ']', .eol],
    [.lit ("you may not use a calculator".data)],
    [.lit ("you may use a calculator".data)],
    [.lit ("total marks – ".data), .digits],
    [.lit ("attempt all questions".data)],
    [.lit ("national quali\x1fcations ".data), .digits],
    [.lit ("mathematics paper ".data), .digit, .lit (" (non-calculator)".data)],
    [.lit ("mathematics paper ".data), .digit, .lit (" (calculator)".data)],
    [.lit ("applications of mathematics paper ".data), .digit],
    [.lit ("sqa".data)],
    [.lit ("thursday, ".data), .digits, .lit (" may".data)],
    [.lit ("friday, ".data), .digits, .lit (" may".data)],
    [.digits, .lit (":".data), .digits, .lit (" am – ".data), .digits, .lit (":".data),
      .digits, .lit (" am".data)],
    [.digits, .lit (":".data), .digits, .lit (" am – ".data), .digits, .lit (":".data),
      .digits, .lit (" pm".data)],
    [.digits, .lit (":".data), .digits, .lit (" pm – ".data), .digits, .lit (":".data),
      .digits, .lit (" pm".data)],
    [.lit ("ref: ".data), .word],
    [.lit ("date: ".data), .word],
    [.lit ("time: ".data), .word],
    [.lit ("duration: ".data), .word],
    [.lit ("instructions".data)],
    [.lit ("additional space for answers".data)],
    [.lit ("additional axes for question ".data), .digits],
    [.bol, .lit ("[blank page]".data), .eol],
    [.bol, .optC '[', .lit ("do not write on this page".data), .optC ']', .eol],
    [.bol, .lit ("marks".data), .eol] ]

/-- The `math_symbol_map` of `advanced_pdf_extractor_v2.__init__`, in source
(insertion) order. -/
def symbolMap : List (Char × List Char) :=
  [ ('', "+".data), ('', "-".data), ('', "=".data),
    ('', "+/-".data), ('', "*".data), ('', "/".data),
    ('', "(".data), ('', ")".data), ('', "[".data),
    ('', "]".data), ('', "\x7b".data), ('', "\x7d".data),
    ('°', "°".data), ('π', "π".data), ('√', "√".data),
    ('–', "-".data), ('—', "-".data), ('−', "-".data),
    ('ﬁ', "fi".data), ('ﬂ', "fl".data) ]

/-- `advanced_pdf_extractor_v2._clean_text`: delete each noise pattern in turn
(stripping after each, as the source does), replace mapped symbol characters,
then collapse whitespace runs and newline runs, stripping after each step. -/
def cleanText (cs : List Char) : List Char :=
  let a := noisePatterns.foldl (fun acc p => pyStrip (scanSub p acc)) cs
  let b := symbolMap.foldl (fun acc cr => replaceChar cr.1 cr.2 acc) a
  let c := pyStrip (collapseRuns pyIsSpace ' ' b)
  pyStrip (collapseRuns (fun x => x = '\n') '\n' c)

/-! ## `advanced_pdf_extractor_v2._process_block` (lines 123–242) and friends

The four line classifiers of `_process_block`, hand-compiled from their
regexes.  Each is a prefix (`re.match`) pattern; the `(.*)` payload group is
the rest of the line (lines contain no newline, having been split on `"\n"`). -/

/-- After the digit group: `\.\s+` — the literal dot and at least one space;
returns the remainder after the spaces. -/
def dotSpaceTail : List Char → Option (List Char)
  | [] => none
  | c :: rest =>
    if c = '.' then
      if (rest.takeWhile pyIsSpace).isEmpty then none else some (rest.dropWhile pyIsSpace)
    else none

/-- `re.match(r"^(\d+)\.\s+(.*)", line)` → (digit string, payload). -/
def mainQMatch (cs : List Char) : Option (List Char × List Char) :=
  let ds := cs.takeWhile Char.isDigit
  if ds.isEmpty then none
  else
    match dotSpaceTail (cs.dropWhile Char.isDigit) with
    | some rest => some (ds, rest)
    | none => none

/-- `re.match(r"^\((\w+)\)\s+(.*)", line)` → (label, payload). -/
def subQMatch : List Char → Option (List Char × List Char)
  | [] => none
  | c :: rest =>
    if c = '(' then
      let w := rest.takeWhile pyIsWord
      if w.isEmpty then none
      else
        match rest.dropWhile pyIsWord with
        | [] => none
        | c2 :: rest2 =>
          if c2 = ')' then
            if (rest2.takeWhile pyIsSpace).isEmpty then none
            else some (w, rest2.dropWhile pyIsSpace)
          else none
    else none

/-- `re.match(r"^(\d+)\.\s+\((\w+)\)\s+(.*)", line)` → (digits, label, payload). -/
def continuedSubMatch (cs : List Char) : Option (List Char × List Char × List Char) :=
  let ds := cs.takeWhile Char.isDigit
  if ds.isEmpty then none
  else
    match dotSpaceTail (cs.dropWhile Char.isDigit) with
    | some rest =>
      match subQMatch rest with
      | some (w, payload) => some (ds, w, payload)
      | none => none
    | none => none

/-- `re.match(r"^(\d+)\.\s+\(continued\)(.*)", line, re.IGNORECASE)` → (digits, payload). -/
def continuedMainMatch (cs : List Char) : Option (List Char × List Char) :=
  let ds := cs.takeWhile Char.isDigit
  if ds.isEmpty then none
  else
    match dotSpaceTail (cs.dropWhile Char.isDigit) with
    | some r =>
      if lowerStr (r.take 11) = "(continued)".data then some (ds, r.drop 11) else none
    | none => none

/-- A sub-question part (`{"part_label": …, "text": …, "marks": …}`). -/
structure V2Part where
  label : List Char
  text : List Char
  marks : Option Nat
deriving DecidableEq

/-- A finalized question of `advanced_pdf_extractor_v2` (the dict built in
`_finalize_current_question`; `hasDiagram` is `metadata["has_diagram"]`). -/
structure V2Question where
  number : List Char
  text : List Char
  marks : Option Nat
  parts : List V2Part
  hasDiagram : Bool
  diagrams : List (List Char)
deriving DecidableEq

/-- The extractor's mutable state (`self.…` fields used by the assembler;
`pending` models the optional attribute `_pending_diagrams`, absent = `none`). -/
structure V2State where
  questions : List V2Question
  currentNumber : Option (List Char)
  currentText : List Char
  currentMarks : Option Nat
  currentParts : List V2Part
  currentDiagrams : List (List Char)
  pending : Option (List (List Char))
  debug : List (List Char)
deriving DecidableEq

/-- `__init__` state. -/
def initV2State : V2State :=
  { questions := [], currentNumber := none, currentText := [], currentMarks := none,
    currentParts := [], currentDiagrams := [], pending := none, debug := [] }

/-- `_add_part` (lines 244–255). -/
def addPart (st : V2State) (label text : List Char) (marks : Option Nat) : V2State :=
  match st.currentNumber with
  | none =>
    { st with debug := st.debug ++
        ["Warning: Trying to add part (".data ++ label ++ ") without a current question.".data] }
  | some _ =>
    { st with currentParts := st.currentParts ++ [⟨label, cleanText text, marks⟩] }

/-- `re.sub(r"(?:marks?[:\s]*|\s)\[?(\d+)\]?\s*$", "", t)`: every match of this
pattern extends to the end of the string, so the substitution truncates at the
leftmost match position (at most one non-overlapping match exists). -/
def stripTrailingMarks : List Char → List Char
  | [] => []
  | c :: rest => if (v2TryAt (c :: rest)).isSome then [] else c :: stripTrailingMarks rest

/-- `re.sub(f"^\\({label}\\)\\s*", "", t, flags=re.IGNORECASE)` (the label, made
of `\w` characters, has no regex metacharacters). -/
def stripLabelHead (label t : List Char) : List Char :=
  if lowerStr (t.take (label.length + 2)) = '(' :: lowerStr label ++ [')'] then
    (t.drop (label.length + 2)).dropWhile pyIsSpace
  else t

/-- `re.sub(f"^{re.escape(num)}\\s*", "", t)` (case-sensitive). -/
def stripNumHead (num t : List Char) : List Char :=
  if num.isPrefixOf t then (t.drop num.length).dropWhile pyIsSpace else t

/-- The per-part half of `_finalize_current_question` (lines 265–288): collapse
and strip the text, strip an echoed label, re-extract missing marks from the
final text, strip a trailing marks annotation, and keep the part only if text
remains. -/
def finalizePart (p : V2Part) : Option V2Part :=
  let t := pyStrip (collapseRuns pyIsSpace ' ' p.text)
  let t := stripLabelHead p.label t
  let m := match p.marks with | some m => some m | none => v2ExtractMarks t
  let t := pyStrip (stripTrailingMarks t)
  if t.isEmpty then none else some ⟨p.label, t, m⟩

/-- `_finalize_current_question` (lines 257–327). -/
def finalizeCurrent (st : V2State) : V2State :=
  let st' : V2State :=
    match st.currentNumber with
    | none => st
    | some num =>
      let finalText0 := pyStrip (collapseRuns pyIsSpace ' ' st.currentText)
      let finalParts := st.currentParts.filterMap finalizePart
      let skippedMsgs := st.currentParts.filterMap fun p =>
        if (finalizePart p).isNone then
          some ("Skipping empty part ".data ++ p.label ++ " for question ".data ++ num)
        else none
      let finalMarks := match st.currentMarks with
        | some m => some m
        | none => v2ExtractMarks finalText0
      let finalText1 := pyStrip (stripTrailingMarks finalText0)
      let finalText := pyStrip (stripNumHead num finalText1)
      if ¬finalText.isEmpty ∨ ¬finalParts.isEmpty then
        { st with
          questions := st.questions ++
            [{ number := num, text := finalText, marks := finalMarks, parts := finalParts,
               hasDiagram := containsSub ("diagram".data) (lowerStr finalText)
                 || finalParts.any (fun p => containsSub ("diagram".data) (lowerStr p.text)),
               diagrams := st.currentDiagrams }],
          debug := st.debug ++ skippedMsgs ++
            ["Finalized question: ".data ++ num ++ " with ".data ++
              natDigits finalParts.length ++ " parts.".data] }
      else
        { st with debug := st.debug ++ skippedMsgs ++
            ["Skipping question ".data ++ num ++ " due to empty content.".data] }
  -- the reset lines (322–327) run unconditionally
  { st' with currentNumber := none, currentText := [], currentMarks := none,
             currentParts := [], currentDiagrams := [] }

/-- Open a new main question: lines 177–184 of `_process_block` (shared by the
plain `MainStart` case and the mismatched-continuation fall-through). -/
def openMain (st : V2State) (qnum text : List Char) (marks : Option Nat) : V2State :=
  let st := finalizeCurrent st
  { st with currentNumber := some (qnum ++ ['.']), currentText := text,
            currentMarks := marks, currentParts := [], currentDiagrams := [],
            debug := st.debug ++ ["Detected main question: ".data ++ qnum ++ ".".data] }

/-- One iteration of the `while` loop of `_process_block` on a non-empty
stripped line.  The result is `Except` because two paths of the source raise:
`ord()` on a multi-character label (TypeError, line 201), and the diagnostic
f-string of line 211, which reads the local `part_letter` before any assignment
when no question has been finalized yet (NameError on its first encounter). -/
def processLine (st : V2State) (line : List Char) : Except (List Char) V2State :=
  let extractedMarks := v2ExtractMarks line
  let cleanedLine := cleanText line
  if cleanedLine.isEmpty then .ok st
  else
    match continuedSubMatch cleanedLine with
    | some (qnum, partLetter, text) =>
      -- lines 151–163
      let st := { st with debug := st.debug ++
        ["Detected continued sub-question: ".data ++ qnum ++ ".(".data ++ partLetter ++ ")".data] }
      if st.currentNumber = some (qnum ++ ['.']) then
        .ok (addPart st partLetter text extractedMarks)
      else
        let st := finalizeCurrent st
        .ok (addPart { st with currentNumber := some (qnum ++ ['.']), currentText := [] }
          partLetter text extractedMarks)
    | none =>
    match mainQMatch cleanedLine with
    | some (qnumStr, rawText) =>
      -- lines 165–184
      let text := pyStrip rawText
      if lowerStr text = "(continued)".data then
        if st.currentNumber = some (qnumStr ++ ['.']) then
          .ok { st with debug := st.debug ++
            ["Ignoring explicit continuation marker for question ".data ++ qnumStr ++ ".".data] }
        else
          .ok (openMain { st with debug := st.debug ++
            ["Warning: Misplaced continuation marker for question ".data ++ qnumStr ++ ".".data] }
            qnumStr text extractedMarks)
      else .ok (openMain st qnumStr text extractedMarks)
    | none =>
    match subQMatch cleanedLine with
    | some (partLetter, text) =>
      -- lines 186–211
      match st.currentNumber with
      | some num =>
        let st := addPart st partLetter text extractedMarks
        .ok { st with debug := st.debug ++
          ["Detected sub-question: ".data ++ num ++ " (".data ++ partLetter ++ ")".data] }
      | none =>
        let st := { st with debug := st.debug ++
          ["Warning: Orphaned sub-question found: ".data ++ cleanedLine] }
        match st.questions.getLast? with
        | some lastQ =>
          match lastQ.parts.getLast? with
          | some lastPart =>
            match partLetter, lastPart.label with
            | [lc], [pc] =>
              if lc.toNat = pc.toNat + 1 then
                .ok { st with
                  questions := st.questions.dropLast ++
                    [{ lastQ with parts := lastQ.parts ++ [⟨partLetter, text, extractedMarks⟩] }],
                  debug := st.debug ++
                    ["Heuristically attached orphaned part (".data ++ partLetter ++
                      ") to question ".data ++ lastQ.number] }
              else
                .ok { st with debug := st.debug ++
                  ["Could not attach orphaned part (".data ++ partLetter ++
                    ") to last question ".data ++ lastQ.number] }
            | _, _ => .error ("TypeError: ord() expected a character".data)
          | none =>
            .ok { st with debug := st.debug ++
              ["Could not attach orphaned part (".data ++ partLetter ++
                ") to last question ".data ++ lastQ.number] }
        | none => .error ("NameError: name part_letter is not defined".data)
    | none =>
    match continuedMainMatch cleanedLine with
    | some (qnum, rawText) =>
      -- lines 213–224 (unreachable: any line matching this pattern is already
      -- matched by `mainQMatch`, and with a payload by `continuedSubMatch`)
      let text := pyStrip rawText
      if st.currentNumber = some (qnum ++ ['.']) then
        .ok { st with
          currentText := if text.isEmpty then st.currentText
                         else st.currentText ++ ' ' :: text,
          debug := st.debug ++ ["Continued main question ".data ++ qnum ++ ".".data] }
      else
        let st := { st with debug := st.debug ++
          ["Warning: Misidentified continued question: ".data ++ cleanedLine] }
        match st.currentNumber with
        | some _ =>
          .ok { st with currentText :=
            if text.isEmpty then st.currentText else st.currentText ++ ' ' :: text }
        | none => .ok st
    | none =>
      -- lines 226–242
      match st.currentNumber with
      | some _ =>
        match st.currentParts.getLast? with
        | some lastPart =>
          .ok { st with currentParts := st.currentParts.dropLast ++
            [{ lastPart with
                text := lastPart.text ++ ' ' :: cleanedLine,
                marks := match lastPart.marks with
                  | some m => some m
                  | none => extractedMarks }] }
        | none =>
          .ok { st with
            currentText := st.currentText ++ ' ' :: cleanedLine,
            currentMarks := match st.currentMarks with
              | some m => some m
              | none => extractedMarks }
      | none => .ok st

/-- `_process_block`: split the stripped block text on newlines and feed each
non-empty stripped line to the loop body. -/
def processBlock (st : V2State) (blockText : List Char) : Except (List Char) V2State :=
  ((pyStrip blockText).splitOn '\n').foldlM
    (fun s l => let ls := pyStrip l; if ls.isEmpty then .ok s else processLine s ls) st

/-! ## `advanced_pdf_extractor_v2.extract_questions` (lines 352–405)

A page is modelled by what the external adapters deliver: its height, the
filenames of the images extracted from it (`_extract_images`), and its text
blocks with their geometry. -/

/-- A PyMuPDF text/image block `(x0, y0, x1, y1, text, block_no, block_type)`
restricted to the fields the code reads. -/
structure V2Block where
  x0 : Int
  y0 : Int
  y1 : Int
  btype : Nat
  text : List Char
deriving DecidableEq

/-- A page: `page.rect.height`, the diagram image filenames extracted from it,
and its blocks. -/
structure V2Page where
  height : Int
  diagrams : List (List Char)
  blocks : List V2Block
deriving DecidableEq

/-- `blocks.sort(key=lambda b: (b[1], b[0]))`: lexicographic on (y0, x0);
Python's sort is stable, and a stable sort under a total preorder is unique,
so `insertionSort` models it exactly. -/
def blockLe (a b : V2Block) : Prop :=
  (a.y0 < b.y0 || (a.y0 == b.y0 && a.x0 ≤ b.x0)) = true

instance : DecidableRel blockLe := fun a b => by unfold blockLe; infer_instance

/-- Leftmost search for `Page \d+|MARKS|DO NOT WRITE|Turn over`
(`re.IGNORECASE`) — existence only. -/
def headerNoisePats : List (List PatItem) :=
  [ [.lit ("page ".data), .digits], [.lit ("marks".data)],
    [.lit ("do not write".data)], [.lit ("turn over".data)] ]

/-- Does any of the patterns match at any position? -/
def scanAnyFound (ps : List (List PatItem)) : List Char → Bool
  | [] => false
  | c :: rest => ps.any (fun p => (tryPat p true (c :: rest)).isSome) || scanAnyFound ps rest

/-- `block_text[:50].replace("\n", " ")` used in the skip diagnostic. -/
def logSnippet (cs : List Char) : List Char :=
  (cs.take 50).map fun c => if c = '\n' then ' ' else c

/-- The body of the `for b in blocks` loop (lines 373–398). -/
def processOneBlock (pageHeight : Int) (st : V2State) (b : V2Block) :
    Except (List Char) V2State :=
  if b.btype = 0 then
    let cleanedForCheck := cleanText b.text
    if (b.y0 < 50 || b.y1 > pageHeight - 50)
        && (cleanedForCheck.isEmpty || scanAnyFound headerNoisePats cleanedForCheck) then
      .ok { st with debug := st.debug ++
        ["Skipping potential header/footer block: ".data ++ logSnippet b.text ++ "...".data] }
    else
      -- lines 390–393: associate pending diagrams with the upcoming question
      let st :=
        if st.currentNumber = none then
          match st.pending with
          | some pd => { st with currentDiagrams := pd, pending := none }
          | none => st
        else st
      processBlock st b.text
  else .ok st

/-- One iteration of the page loop (lines 354–398). -/
def processPage (pageIdx : Nat) (st : V2State) (pg : V2Page) :
    Except (List Char) V2State :=
  let st := { st with debug := st.debug ++
    ["--- Processing Page ".data ++ natDigits (pageIdx + 1) ++ " ---".data] }
  -- `_extract_images` saves each image and logs it
  let st := { st with debug :=
    st.debug ++ pg.diagrams.map (fun d => "Saved image ".data ++ d) }
  -- lines 362–367: attach page diagrams to the open question, else overwrite
  -- the pending buffer
  let st :=
    if st.currentNumber.isSome then
      { st with currentDiagrams := st.currentDiagrams ++ pg.diagrams }
    else { st with pending := some pg.diagrams }
  (List.insertionSort blockLe pg.blocks).foldlM (processOneBlock pg.height) st

/-- `extract_questions` up to the final `_finalize_current_question()`
(the `_save_questions` persistence step is modelled separately by
`saveQuestions`). -/
def runExtract (pages : List V2Page) : Except (List Char) V2State :=
  (pages.enum.foldlM (fun st ip => processPage ip.1 st ip.2) initV2State).map finalizeCurrent

/-! ## `advanced_pdf_extractor_v2._save_questions` (lines 407–456)

The cross-page merge (`merged_questions` dict, lines 415–433) followed by the
validation/cleanup loop (lines 435–450).  The `debug_output` entries of this
method are not modelled: they do not influence the question list. -/

/-- Merging one later record into the accumulated record with the same key
(lines 421–428). -/
def merge1 (a b : V2Question) : V2Question :=
  { a with
    text := a.text ++ ' ' :: b.text,
    parts := a.parts ++ b.parts,
    diagrams := a.diagrams ++ b.diagrams,
    marks := match a.marks with | none => b.marks | some m => some m,
    hasDiagram := a.hasDiagram || b.hasDiagram }

/-- Fold a whole key group (in encounter order) into one record. -/
def mergeGroup : List V2Question → V2Question
  | [] => { number := [], text := [], marks := none, parts := [], hasDiagram := false,
            diagrams := [] }   -- unreachable: groups are non-empty
  | q :: rest => rest.foldl merge1 q

/-- The `merged_questions` insertion-ordered dict as an association list keyed
by `question_number`. -/
def insertMerge (acc : List V2Question) (q : V2Question) : List V2Question :=
  if acc.any (fun e => e.number == q.number) then
    acc.map fun e => if e.number == q.number then merge1 e q else e
  else acc ++ [q]

/-- Lines 416–433: group-and-merge by `question_number`, keeping first-encounter
key order (`list(merged_questions.values())`). -/
def mergeQuestions (qs : List V2Question) : List V2Question :=
  qs.foldl insertMerge []

/-- Python string `<` on character lists (code-point lexicographic), as used by
`sorted(...)`. -/
def lexLe : List Char → List Char → Bool
  | [], _ => true
  | _ :: _, [] => false
  | c :: cr, d :: dr => if c < d then true else if d < c then false else lexLe cr dr

/-- Propositional wrapper for `insertionSort`. -/
def lexLeP (a b : List Char) : Prop := lexLe a b = true

instance : DecidableRel lexLeP := fun a b => by unfold lexLeP; infer_instance

/-- `sorted(list(set(xs)))` (the set's iteration order is irrelevant: sorting a
duplicate-free list is unique). -/
def sortedSet (l : List (List Char)) : List (List Char) :=
  List.insertionSort lexLeP (firstDedup l)

/-- The cleanup applied to each merged record (lines 435–450); `none` means the
record is skipped. -/
def cleanupQuestion (q : V2Question) : Option V2Question :=
  if ¬q.number.isEmpty ∧ (¬q.text.isEmpty ∨ ¬q.parts.isEmpty) then
    let parts' := q.parts.filter fun p => ¬p.text.isEmpty
    if ¬q.text.isEmpty ∨ ¬parts'.isEmpty then
      some { q with
        text := pyStrip (collapseRuns pyIsSpace ' ' q.text),
        parts := parts'.map fun p => { p with text := pyStrip (collapseRuns pyIsSpace ' ' p.text) },
        diagrams := sortedSet q.diagrams }
    else none
  else none

/-- `_save_questions`: merge, then validate/clean. -/
def saveQuestions (qs : List V2Question) : List V2Question :=
  (mergeQuestions qs).filterMap cleanupQuestion

/-! ## `final_extractor_fixed._extract_questions_from_text` (lines 196–278)
and `_extract_question_parts` (lines 280–324)

The first pass finds matches of `r'(\d+)\.\s*((?:(?!\n\d+\.).)+)'`; the
per-match processing below consumes those `(question_num, question_text)`
pairs.  The helper methods `_clean_question_text`, `_extract_metadata` and
`_determine_topic` are called but not present in the source files, so the
model is universally quantified over them (`FHelp`): everything proved below
holds for every choice of those helpers. -/

/-- The helper methods of `final_extractor_fixed` that are absent from the
sources: `_clean_question_text`, the `marks` entry of `_extract_metadata`
(absence of the key makes `metadata.get('marks', 1)` take its default), and
`_determine_topic`. -/
structure FHelp where
  cleanQT : List Char → List Char
  metaMarks : List Char → Option Nat
  topicOf : List Char → List Char

/-- A question dict built by `_extract_questions_from_text` /
`_extract_question_parts` (fields as in lines 256–264 and 312–320;
`diagrams` is always `[]` at this stage, filled later). -/
structure FQuestion where
  number : List Char
  text : List Char
  marks : Nat
  topic : List Char
  metaMarks : Option Nat
  hasDiagRef : Bool
  diagrams : List (List Char)
deriving DecidableEq

/-- Does `\s+\d+\.\s+[A-Z]` match at the current position? -/
def nextQAt (cs : List Char) : Bool :=
  let ws := cs.takeWhile pyIsSpace
  if ws.isEmpty then false
  else
    let r := cs.dropWhile pyIsSpace
    let ds := r.takeWhile Char.isDigit
    if ds.isEmpty then false
    else
      match r.dropWhile Char.isDigit with
      | '.' :: r2 =>
        let w2 := r2.takeWhile pyIsSpace
        if w2.isEmpty then false
        else
          match r2.dropWhile pyIsSpace with
          | c :: _ => isUpperAZ c
          | [] => false
      | _ => false

/-- `re.search(r'\s+\d+\.\s+[A-Z]', t)`: index of the leftmost match, if any
(used via `match.start()` to truncate). -/
def findNextQIdx : List Char → Option Nat
  | [] => none
  | c :: rest => if nextQAt (c :: rest) then some 0 else (findNextQIdx rest).map (· + 1)

/-- `text[:m.start()]` when `re.search(r'\s+\d+\.\s+[A-Z]')` matches (lines
247–250 and 378–381). -/
def truncAtNextQ (t : List Char) : List Char :=
  match findNextQIdx t with
  | some i => t.take i
  | none => t

/-- `\([a-z]\)` at the current position: the captured letter. -/
def partStartAt : List Char → Option Char
  | '(' :: c :: ')' :: _ => if isLowerAZ c then some c else none
  | _ => none

/-- Leftmost occurrence of `\([a-z]\)`: its index and letter. -/
def findOccIdx : List Char → Option (Nat × Char)
  | [] => none
  | c :: rest =>
    match partStartAt (c :: rest) with
    | some l => some (0, l)
    | none => (findOccIdx rest).map fun p => (p.1 + 1, p.2)

/-- `re.findall(r'\(([a-z])\)(.*?)(?=\([a-z]\)|$)', t, re.DOTALL)`: each part
letter with the (lazy) text running to the next part opener or the end; for
the last part, the lazy group stops before a single final newline when one is
present (`$` without `re.MULTILINE` also matches there, and it is the earlier
position).  The fuel (`length + 1` suffices: every step drops at least three
characters) makes the definition kernel-computable. -/
def findPartsAux : Nat → List Char → List (Char × List Char)
  | 0, _ => []
  | fuel + 1, cs =>
    match findOccIdx cs with
    | none => []
    | some (i, x) =>
      let rest := cs.drop (i + 3)
      match findOccIdx rest with
      | none => [(x, if rest.getLast? = some '\n' then rest.dropLast else rest)]
      | some (j, _) => (x, rest.take j) :: findPartsAux fuel (rest.drop j)

/-- See `findPartsAux`. -/
def findParts (cs : List Char) : List (Char × List Char) :=
  findPartsAux (cs.length + 1) cs

/-- The loop body of `_extract_question_parts` (lines 300–322): clean the part
text, silently skip it when shorter than 5 characters, else build the part
record with `marks = metadata.get('marks', 1)`. -/
def partRecord (H : FHelp) (qnum : List Char) (p : Char × List Char) : Option FQuestion :=
  let t := H.cleanQT p.2
  if t.length < 5 then none
  else
    some { number := qnum ++ ".(".data ++ [p.1] ++ ")".data,
           text := t,
           marks := (H.metaMarks t).getD 1,
           topic := H.topicOf t,
           metaMarks := H.metaMarks t,
           hasDiagRef := containsSub "diagram".data (lowerStr t)
             || containsSub "figure".data (lowerStr t),
           diagrams := [] }

/-- `_extract_question_parts`: `None` when the part pattern finds nothing. -/
def extractQP (H : FHelp) (qnum qtext : List Char) : Option (List FQuestion) :=
  match findParts qtext with
  | [] => none
  | ps => some (ps.filterMap (partRecord H qnum))

/-- The single-question branch of the match loop (lines 243–266). -/
def singleQ (H : FHelp) (qnum qtext : List Char) : List FQuestion :=
  let t := truncAtNextQ (H.cleanQT qtext)
  [{ number := qnum ++ ['.'],
     text := t,
     marks := (H.metaMarks t).getD 1,
     topic := H.topicOf t,
     metaMarks := H.metaMarks t,
     hasDiagRef := containsSub "diagram".data (lowerStr t)
       || containsSub "figure".data (lowerStr t),
     diagrams := [] }]

/-- The per-match processing of `_extract_questions_from_text` (lines 226–266):
normalize the question number (`str(int(...))`), strip the text, silently skip
the whole match when the text is shorter than 10 characters, else emit either
the part records (when parts were found and at least one survived — Python's
`if parts:` is false both for `None` and for `[]`) or the single question. -/
def processMatch (H : FHelp) (m : List Char × List Char) : List FQuestion :=
  let qnum := natDigits (readNat (pyStrip m.1))
  let qtext := pyStrip m.2
  if qtext.length < 10 then []
  else
    match extractQP H qnum qtext with
    | some (p :: ps) => p :: ps
    | _ => singleQ H qnum qtext

/-- The whole first-pass loop over the regex matches. -/
def processMatches (H : FHelp) (ms : List (List Char × List Char)) : List FQuestion :=
  ms.flatMap (processMatch H)

/-! ## Concrete instances used by the theorems below -/

/-- C1/C9 input: detected numbers `3., 3., 1.` — a duplicate and a gap, with
payloads recording the original positions. -/
def c1Ex : List (PQ Nat) := [⟨"3.".data, 0⟩, ⟨"3.".data, 1⟩, ⟨"1.".data, 2⟩]

/-- A state with question `7.` open (text so far `Find the area`), as after a
page ending in `7. Find the area`. -/
def c5State : V2State :=
  { questions := [], currentNumber := some "7.".data, currentText := "Find the area".data,
    currentMarks := none, currentParts := [], currentDiagrams := [], pending := none,
    debug := [] }

/-- A finalized question `1.` with zero parts (Scenario A of the spec). -/
def c6Q1 : V2Question :=
  { number := "1.".data, text := "Evaluate".data, marks := some 2, parts := [],
    hasDiagram := false, diagrams := [] }

/-- No question open, `c6Q1` already finalized (the spec's "forced reset"). -/
def c6State : V2State :=
  { questions := [c6Q1], currentNumber := none, currentText := [], currentMarks := none,
    currentParts := [], currentDiagrams := [], pending := none, debug := [] }

/-- A page carrying one diagram blob and one mid-page text block that opens
question 1. -/
def c8Page : V2Page :=
  { height := 800, diagrams := ["d1.png".data],
    blocks := [⟨10, 100, 120, 0, "1. Find the area of the triangle.".data⟩] }

/-- Two fragments of question `7.` with the same part label `a` (the same part
re-detected when the question resumes after a page break). -/
def c7A : V2Question :=
  { number := "7.".data, text := "Find the area".data, marks := none,
    parts := [⟨"a".data, "first part".data, some 2⟩], hasDiagram := false,
    diagrams := ["d1".data] }

/-- See `c7A`. -/
def c7B : V2Question :=
  { number := "7.".data, text := "of the shape.".data, marks := some 3,
    parts := [⟨"a".data, "second occurrence".data, none⟩], hasDiagram := true,
    diagrams := ["d2".data] }

/-- The merge of `c7A` and `c7B` (computed by `mergeQuestions`), used as a
concrete merged record. -/
def c4q : V2Question :=
  { number := "7.".data, text := "Find the area of the shape.".data, marks := some 3,
    parts := [⟨"a".data, "first part".data, some 2⟩,
              ⟨"a".data, "second occurrence".data, none⟩],
    hasDiagram := true, diagrams := ["d1".data, "d2".data] }

/-- A concrete instantiation of the absent helper methods (identity cleaning,
no marks metadata, no topic), used to witness the universally quantified
theorems about `final_extractor_fixed`. -/
def hW : FHelp := { cleanQT := id, metaMarks := fun _ => none, topicOf := fun _ => [] }

/-- Python `"a" if xs else "b"` on the marks sequence:
the first non-`None` marks value. -/
def firstSome : List (Option Nat) → Option Nat
  | [] => none
  | none :: rest => firstSome rest
  | some m :: _ => some m

/-- `" ".join`-like: texts concatenated with a single separating space
(the merge's `text += " " + q["text"]`). -/
def joinSp : List (List Char) → List Char
  | [] => []
  | t :: ts => t ++ ts.flatMap (fun u => ' ' :: u)

/-- The group of records sharing a question-number key, in encounter order. -/
def keyGroup (qs : List V2Question) (k : List Char) : List V2Question :=
  qs.filter fun r => r.number == k

/-! # Helper lemmas -/

lemma mem_dropWhile_of_mem {p : Char → Bool} {x : Char} {l : List Char}
    (h : x ∈ l) (hx : p x = false) : x ∈ l.dropWhile p := by
  have hsplit := List.takeWhile_append_dropWhile p l
  rw [← hsplit] at h
  rcases List.mem_append.mp h with h' | h'
  · exact absurd (List.mem_takeWhile_imp h') (by simp [hx])
  · exact h'

lemma all_eq_false_of_mem {p : Char → Bool} {x : Char} {l : List Char}
    (h : x ∈ l) (hx : p x = false) : l.all p = false := by
  cases hall : l.all p with
  | false => rfl
  | true => exact absurd (List.all_eq_true.mp hall x h) (by simp [hx])

/-! Lemmas for the end-anchoring of `v2ExtractMarks` (claim C3): no match of
the pattern can cover a remainder containing `)`, since no item of the pattern
can consume `)`. -/

lemma v2TailOK_eq_false {l : List Char} (h : ')' ∈ l) : v2TailOK l = false := by
  cases l with
  | nil => cases h
  | cons c rest =>
    show (if c = ']' then rest.all pyIsSpace else ((c :: rest).all pyIsSpace)) = false
    by_cases hc : c = ']'
    · subst hc
      have hr : ')' ∈ rest := by
        rcases List.mem_cons.mp h with h' | h'
        · exact absurd h'.symm (by decide)
        · exact h'
      rw [if_pos rfl]
      exact all_eq_false_of_mem hr (by decide)
    · rw [if_neg hc]
      exact all_eq_false_of_mem h (by decide)

lemma v2AfterDigits_eq_none {l : List Char} (h : ')' ∈ l) : v2AfterDigits l = none := by
  unfold v2AfterDigits
  by_cases he : (l.takeWhile Char.isDigit).isEmpty
  · simp [he]
  · have hd : ')' ∈ l.dropWhile Char.isDigit := mem_dropWhile_of_mem h (by decide)
    simp [he, v2TailOK_eq_false hd]

lemma v2OptBracket_eq_none {l : List Char} (h : ')' ∈ l) : v2OptBracket l = none := by
  cases l with
  | nil => cases h
  | cons c rest =>
    show (if c = '[' then v2AfterDigits rest else v2AfterDigits (c :: rest)) = none
    by_cases hc : c = '['
    · subst hc
      have hr : ')' ∈ rest := by
        rcases List.mem_cons.mp h with h' | h'
        · exact absurd h'.symm (by decide)
        · exact h'
      rw [if_pos rfl]
      exact v2AfterDigits_eq_none hr
    · rw [if_neg hc]
      exact v2AfterDigits_eq_none h

lemma mem_v2OptS {l : List Char} (h : ')' ∈ l) : ')' ∈ v2OptS l := by
  cases l with
  | nil => cases h
  | cons c rest =>
    show ')' ∈ (if c.toLower = 's' then rest else c :: rest)
    by_cases hc : c.toLower = 's'
    · have hr : ')' ∈ rest := by
        rcases List.mem_cons.mp h with h' | h'
        · exfalso; rw [← h'] at hc; exact absurd hc (by decide)
        · exact h'
      rw [if_pos hc]; exact hr
    · rw [if_neg hc]; exact h

lemma v2Branch1_eq_none {l : List Char} (h : ')' ∈ l) : v2Branch1 l = none := by
  unfold v2Branch1
  by_cases hm : lowerStr (l.take 4) = "mark".data
  · rw [if_pos hm]
    have h4 : ')' ∈ l.drop 4 := by
      have hsplit := List.take_append_drop 4 l
      rw [← hsplit] at h
      rcases List.mem_append.mp h with h' | h'
      · exfalso
        have hmem : Char.toLower ')' ∈ lowerStr (l.take 4) :=
          List.mem_map_of_mem Char.toLower h'
        rw [hm] at hmem
        exact absurd hmem (by decide)
      · exact h'
    exact v2OptBracket_eq_none (mem_dropWhile_of_mem (mem_v2OptS h4) (by decide))
  · exact if_neg hm

lemma v2Branch2_eq_none {l : List Char} (h : ')' ∈ l) : v2Branch2 l = none := by
  cases l with
  | nil => rfl
  | cons c rest =>
    show (if pyIsSpace c then v2OptBracket rest else none) = none
    by_cases hs : pyIsSpace c
    · rw [if_pos hs]
      have hr : ')' ∈ rest := by
        rcases List.mem_cons.mp h with h' | h'
        · exfalso; rw [← h'] at hs; exact absurd hs (by decide)
        · exact h'
      exact v2OptBracket_eq_none hr
    · exact if_neg hs

lemma v2TryAt_eq_none {l : List Char} (h : ')' ∈ l) : v2TryAt l = none := by
  show (v2Branch1 l <|> v2Branch2 l) = none
  rw [v2Branch1_eq_none h, v2Branch2_eq_none h]
  rfl

lemma v2ExtractMarks_append_paren (s : List Char) : v2ExtractMarks (s ++ [')']) = none := by
  induction s with
  | nil =>
    show (v2TryAt [')'] <|> v2ExtractMarks []) = none
    rw [v2TryAt_eq_none (by decide)]
    rfl
  | cons c s ih =>
    show (v2TryAt (c :: (s ++ [')'])) <|> v2ExtractMarks (s ++ [')'])) = none
    rw [v2TryAt_eq_none (by simp), ih]
    rfl

/-- Every record emitted by the per-match processing of
`final_extractor_fixed` carries `marks = metadata.get('marks', 1)` for its own
(final) text. -/
lemma processMatch_mem_marks (H : FHelp) (m : List Char × List Char) (q : FQuestion)
    (hq : q ∈ processMatch H m) : q.marks = q.metaMarks.getD 1 := by
  simp only [processMatch] at hq
  split at hq
  · cases hq
  · split at hq
    · rename_i p ps heq
      unfold extractQP at heq
      split at heq
      · cases heq
      · rename_i ps' hps'
        injection heq with heq
        rw [← heq, List.mem_filterMap] at hq
        obtain ⟨a, _, ha⟩ := hq
        simp only [partRecord] at ha
        split at ha
        · cases ha
        · cases ha
          rfl
    · unfold singleQ at hq
      rcases List.mem_singleton.mp hq with rfl
      rfl

/-! # Claims -/

/-- C2, counterexample: `Evaluate x` carries no marks annotation — both search
patterns of `_extract_marks` itself fail on it — yet the emitted marks value is
the guessed default `1`, not "unknown"/`None` (`hierarchical_extractor` lines
328–353, same code in `patched_extractor`). -/
theorem c2_counterexample :
    hierSearch1 ("Evaluate x".data) = none ∧
    hierSearch2 ("Evaluate x".data) = none ∧
    hierExtractMarks ("Evaluate x".data) = 1 := by
  decide

/-- C2, amended: the extractors cited by the claim default missing marks to 1
rather than emitting "unknown": `hierarchical_extractor._extract_marks`
(= `patched_extractor._extract_marks`) returns 1 whenever both of its patterns
fail, and every record of `final_extractor_fixed`'s per-match processing gets
`marks = 1` whenever its metadata carries no marks
(`metadata.get('marks', 1)`), for every choice of the absent helper methods. -/
theorem c2_amended :
    (∀ t : List Char, hierSearch1 t = none → hierSearch2 t = none →
      hierExtractMarks t = 1) ∧
    (∀ (H : FHelp) (m : List Char × List Char) (q : FQuestion),
      q ∈ processMatch H m → q.metaMarks = none → q.marks = 1) := by
  constructor
  · intro t h1 h2
    unfold hierExtractMarks
    rw [h1, h2]
  · intro H m q hq hnone
    rw [processMatch_mem_marks H m q hq, hnone]
    rfl

/-- C2, witness for `c2_amended` at concrete inputs. -/
theorem c2_amended_witness :
    hierExtractMarks ("Evaluate x".data) = 1 ∧
    ({ number := "1.".data, text := "Evaluate the expression below".data, marks := 1,
       topic := [], metaMarks := none, hasDiagRef := false, diagrams := [] } : FQuestion).marks
      = 1 := by
  constructor
  · exact c2_amended.1 ("Evaluate x".data) (by decide) (by decide)
  · exact c2_amended.2 hW ("1".data, "Evaluate the expression below".data)
      { number := "1.".data, text := "Evaluate the expression below".data, marks := 1,
        topic := [], metaMarks := none, hasDiagRef := false, diagrams := [] }
      (by decide) rfl

/-- C3, counterexample: `hierarchical_extractor._extract_marks` (cited by the
claim) is not anchored at the end of the line: on
`Plot the point (3) on the grid carefully` it captures the mid-line `(3)` as
3 marks, and on text ending in the mathematical expression `y = (x+2)` it
yields the default 1, not "unknown". -/
theorem c3_counterexample :
    hierExtractMarks ("Plot the point (3) on the grid carefully".data) = 3 ∧
    hierExtractMarks ("Sketch the line y = (x+2)".data) = 1 := by
  decide

/-- C3, amended: in `advanced_pdf_extractor_v2._extract_marks` the anchoring
property holds: the pattern can only match a number at the end of the line, so
any text whose last character is `)` — in particular any text ending in
`y = (x+2)` — yields `None`. -/
theorem c3_amended :
    (∀ s : List Char, v2ExtractMarks (s ++ [')']) = none) ∧
    (∀ s : List Char, v2ExtractMarks (s ++ "y = (x+2)".data) = none) := by
  refine ⟨v2ExtractMarks_append_paren, fun s => ?_⟩
  have h : s ++ "y = (x+2)".data = (s ++ "y = (x+2".data) ++ [')'] := by
    simp
  rw [h]
  exact v2ExtractMarks_append_paren (s ++ "y = (x+2".data)

set_option maxRecDepth 100000 in
/-- C5: with question `7.` open, the line `7. (continued) of the shape.` is
captured by the continued-sub-question pattern (`\w+` matches `continued`), so
the extractor records a new part labelled `continued` with text
`of the shape.` instead of appending the trailing text to the open question's
text; the dedicated continued-main branch of `_process_block` (lines 213–224),
which implements exactly the claimed behaviour, is unreachable. -/
theorem c5_continued_bug :
    processLine c5State ("7. (continued) of the shape.".data) =
      .ok { c5State with
        currentParts := [⟨"continued".data, "of the shape.".data, none⟩],
        debug := ["Detected continued sub-question: 7.(continued)".data] } := by
  rfl

set_option maxRecDepth 100000 in
/-- C6, counterexample: a part-start token `(a) continued text` arriving with
no open question, while the most recently finalized question `1.` has zero
parts, is dropped with a diagnostic — the questions list is unchanged — where
the claim's priority rule (1) requires attaching the part to question 1. -/
theorem c6_counterexample :
    processLine c6State ("(a) continued text".data) =
      .ok { c6State with
        debug := ["Warning: Orphaned sub-question found: (a) continued text".data,
                  "Could not attach orphaned part (a) to last question 1.".data] } := by
  rfl

/-- C7, counterexample: two finalized fragments of question `7.` each carrying
a part labelled `a` are merged by `_save_questions` into one record whose part
list holds the duplicate labels `a, a` — duplicates are neither dropped nor
re-labelled, refuting the uniqueness invariant. -/
theorem c7_counterexample :
    ¬ (∀ q ∈ saveQuestions [c7A, c7B], (q.parts.map (·.label)).Nodup) := by
  decide

set_option maxRecDepth 100000 in
/-- C8: a page carrying the diagram blob `d1.png` before any question is open
buffers it as pending, and the source's comments state it is to be attached to
the next question found; but opening question 1 resets
`current_question_diagrams`, so the emitted record's diagram set is empty and
the blob is lost. -/
theorem c8_pending_diagrams_bug :
    c8Page.diagrams = ["d1.png".data] ∧
    (runExtract [c8Page]).toOption.map (fun st => st.questions) =
      some [{ number := "1.".data, text := "Find the area of the triangle.".data,
              marks := none, parts := [], hasDiagram := false, diagrams := [] }] := by
  constructor
  · rfl
  · rfl

/-- C10: the per-match processing of `final_extractor_fixed` silently omits
every detected main question whose stripped text is shorter than 10
characters and every detected part whose cleaned text is shorter than 5
characters, for every choice of the absent helper methods. -/
theorem c10_min_length :
    (∀ (H : FHelp) (nd body : List Char), (pyStrip body).length < 10 →
      processMatch H (nd, body) = []) ∧
    (∀ (H : FHelp) (qnum : List Char) (l : Char) (pt : List Char),
      (H.cleanQT pt).length < 5 → partRecord H qnum (l, pt) = none) := by
  constructor
  · intro H nd body h
    simp only [processMatch]
    rw [if_pos h]
  · intro H qnum l pt h
    simp only [partRecord]
    rw [if_pos h]

/-- C10, witness: non-empty texts below the cutoffs are dropped (a strictly
stronger filter than dropping only empty records). -/
theorem c10_min_length_witness :
    processMatch hW ("1".data, " short txt ".data) = [] ∧
    partRecord hW "1".data ('a', "abc".data) = none := by
  constructor
  · exact c10_min_length.1 hW ("1".data) (" short txt ".data) (by decide)
  · exact c10_min_length.2 hW ("1".data) 'a' ("abc".data) (by decide)

/-- A line matching the part-start pattern starts with `(`, so the two
higher-priority patterns of `_process_block` (which require a leading digit)
fail on it, and the line is non-empty. -/
lemma classify_of_subQMatch {cs : List Char} {x : List Char × List Char}
    (h : subQMatch cs = some x) :
    continuedSubMatch cs = none ∧ mainQMatch cs = none ∧ cs.isEmpty = false := by
  cases cs with
  | nil => exact absurd h (by simp [subQMatch])
  | cons c rest =>
    have hc : c = '(' := by
      by_contra hc
      rw [show subQMatch (c :: rest) =
          (if c = '(' then
            (let w := rest.takeWhile pyIsWord
             if w.isEmpty then none
             else
               match rest.dropWhile pyIsWord with
               | [] => none
               | c2 :: rest2 =>
                 if c2 = ')' then
                   if (rest2.takeWhile pyIsSpace).isEmpty then none
                   else some (w, rest2.dropWhile pyIsSpace)
                 else none)
          else none) from rfl, if_neg hc] at h
      exact Option.noConfusion h
    subst hc
    have hds : (('(' :: rest).takeWhile Char.isDigit).isEmpty = true := by
      rw [List.takeWhile_cons_of_neg (by decide)]
      rfl
    refine ⟨?_, ?_, rfl⟩
    · unfold continuedSubMatch
      rw [if_pos hds]
    · unfold mainQMatch
      rw [if_pos hds]

set_option maxRecDepth 4000 in
/-- C6, amended: with no main question open, the orphan-part logic of
`_process_block` (lines 192–211) applies only the successor-label rule: when
the most recently finalized question has zero parts the token's part is
dropped, unattached, with two diagnostics and an otherwise unchanged state
(its content is discarded); it is attached only when the last part label's
alphabetic successor equals the token's label. -/
theorem c6_amended (st : V2State) (line l t : List Char)
    (hcur : st.currentNumber = none)
    (hsub : subQMatch (cleanText line) = some (l, t)) :
    (∀ lastQ, st.questions.getLast? = some lastQ → lastQ.parts = [] →
      processLine st line = .ok { st with debug := st.debug ++
        ["Warning: Orphaned sub-question found: ".data ++ cleanText line,
         "Could not attach orphaned part (".data ++ l ++
           ") to last question ".data ++ lastQ.number] }) ∧
    (∀ lastQ lastP lc pc, st.questions.getLast? = some lastQ →
      lastQ.parts.getLast? = some lastP → l = [lc] → lastP.label = [pc] →
      lc.toNat = pc.toNat + 1 →
      processLine st line = .ok { st with
        questions := st.questions.dropLast ++
          [{ lastQ with parts := lastQ.parts ++ [⟨l, t, v2ExtractMarks line⟩] }],
        debug := st.debug ++
          ["Warning: Orphaned sub-question found: ".data ++ cleanText line,
           "Heuristically attached orphaned part (".data ++ l ++
             ") to question ".data ++ lastQ.number] }) := by
  obtain ⟨hcsm, hmm, hne⟩ := classify_of_subQMatch hsub
  constructor
  · intro lastQ hlast hparts
    simp only [processLine, hne, hcsm, hmm, hsub, hcur, Bool.false_eq_true, if_false]
    rw [hlast]
    dsimp only
    rw [hparts]
    simp [List.append_assoc]
  · intro lastQ lastP lc pc hlast hlastP hl hpl hord
    simp only [processLine, hne, hcsm, hmm, hsub, hcur, Bool.false_eq_true, if_false]
    rw [hlast]
    dsimp only
    rw [hlastP]
    dsimp only
    rw [hl, hpl]
    dsimp only
    rw [if_pos hord]
    simp [List.append_assoc]

/-! Lemmas about `firstDedup` (the dict key order). -/

lemma mem_firstDedupAux {β : Type} [DecidableEq β] {x : β} :
    ∀ (l : List β) (seen : List β), x ∈ firstDedupAux seen l ↔ x ∈ l ∧ x ∉ seen := by
  intro l
  induction l with
  | nil => intro seen; simp [firstDedupAux]
  | cons k ks ih =>
    intro seen
    unfold firstDedupAux
    by_cases hk : k ∈ seen
    · rw [if_pos hk, ih]
      constructor
      · rintro ⟨hx, hs⟩; exact ⟨List.mem_cons_of_mem _ hx, hs⟩
      · rintro ⟨hx, hs⟩
        rcases List.mem_cons.mp hx with rfl | hx
        · exact absurd hk hs
        · exact ⟨hx, hs⟩
    · rw [if_neg hk]
      constructor
      · intro hx
        rcases List.mem_cons.mp hx with rfl | hx
        · exact ⟨List.mem_cons_self _ _, hk⟩
        · obtain ⟨h1, h2⟩ := (ih (k :: seen)).mp hx
          exact ⟨List.mem_cons_of_mem _ h1,
            fun hs => h2 (List.mem_cons_of_mem _ hs)⟩
      · rintro ⟨hx, hs⟩
        rcases List.mem_cons.mp hx with rfl | hx
        · exact List.mem_cons_self _ _
        · by_cases hxk : x = k
          · subst hxk; exact List.mem_cons_self _ _
          · exact List.mem_cons_of_mem _ ((ih (k :: seen)).mpr
              ⟨hx, fun hmem => by
                rcases List.mem_cons.mp hmem with h | h
                · exact hxk h
                · exact hs h⟩)

lemma mem_firstDedup {β : Type} [DecidableEq β] {x : β} {l : List β} :
    x ∈ firstDedup l ↔ x ∈ l := by
  rw [firstDedup, mem_firstDedupAux]
  simp

lemma nodup_firstDedupAux {β : Type} [DecidableEq β] :
    ∀ (l : List β) (seen : List β), (firstDedupAux seen l).Nodup := by
  intro l
  induction l with
  | nil => intro seen; exact List.nodup_nil
  | cons k ks ih =>
    intro seen
    unfold firstDedupAux
    by_cases hk : k ∈ seen
    · rw [if_pos hk]; exact ih seen
    · rw [if_neg hk]
      refine List.Nodup.cons ?_ (ih (k :: seen))
      intro hmem
      exact ((mem_firstDedupAux ks (k :: seen)).mp hmem).2 (List.mem_cons_self _ _)

lemma nodup_firstDedup {β : Type} [DecidableEq β] (l : List β) :
    (firstDedup l).Nodup := nodup_firstDedupAux l []

lemma firstDedupAux_append_singleton {β : Type} [DecidableEq β] {x : β} :
    ∀ (l : List β) (seen : List β),
      firstDedupAux seen (l ++ [x]) =
        if x ∈ seen ∨ x ∈ l then firstDedupAux seen l
        else firstDedupAux seen l ++ [x] := by
  intro l
  induction l with
  | nil =>
    intro seen
    simp only [List.nil_append, firstDedupAux]
    by_cases hx : x ∈ seen
    · simp [hx]
    · simp [hx]
  | cons k ks ih =>
    intro seen
    by_cases hk : k ∈ seen
    · have lhs : firstDedupAux seen ((k :: ks) ++ [x]) = firstDedupAux seen (ks ++ [x]) := by
        simp only [List.cons_append, firstDedupAux, if_pos hk, List.append_eq]
      have rhs : firstDedupAux seen (k :: ks) = firstDedupAux seen ks := by
        simp only [firstDedupAux, if_pos hk]
      rw [lhs, rhs, ih]
      have hcond : (x ∈ seen ∨ x ∈ k :: ks) ↔ (x ∈ seen ∨ x ∈ ks) := by
        constructor
        · rintro (h | h)
          · exact Or.inl h
          · rcases List.mem_cons.mp h with rfl | h
            · exact Or.inl hk
            · exact Or.inr h
        · rintro (h | h)
          · exact Or.inl h
          · exact Or.inr (List.mem_cons_of_mem _ h)
      by_cases hc : x ∈ seen ∨ x ∈ ks
      · rw [if_pos hc, if_pos (hcond.mpr hc)]
      · rw [if_neg hc, if_neg (fun h => hc (hcond.mp h))]
    · have lhs : firstDedupAux seen ((k :: ks) ++ [x])
          = k :: firstDedupAux (k :: seen) (ks ++ [x]) := by
        simp only [List.cons_append, firstDedupAux, if_neg hk, List.append_eq]
      have rhs : firstDedupAux seen (k :: ks) = k :: firstDedupAux (k :: seen) ks := by
        simp only [firstDedupAux, if_neg hk]
      rw [lhs, rhs, ih]
      have hcond : (x ∈ (k :: seen) ∨ x ∈ ks) ↔ (x ∈ seen ∨ x ∈ k :: ks) := by
        simp only [List.mem_cons]
        tauto
      by_cases hc : x ∈ (k :: seen) ∨ x ∈ ks
      · rw [if_pos hc, if_pos (hcond.mp hc)]
      · rw [if_neg hc, if_neg (fun h => hc (hcond.mpr h))]
        simp

lemma firstDedup_append_singleton {β : Type} [DecidableEq β] (x : β) (l : List β) :
    firstDedup (l ++ [x]) =
      if x ∈ l then firstDedup l else firstDedup l ++ [x] := by
  rw [firstDedup, firstDedupAux_append_singleton]
  simp only [List.not_mem_nil, false_or]

/-! Lemmas about the cross-page merge (claims C4, C7). -/

lemma foldl_merge1_number : ∀ (rest : List V2Question) (q : V2Question),
    (rest.foldl merge1 q).number = q.number := by
  intro rest
  induction rest with
  | nil => intro q; rfl
  | cons r rest ih => intro q; rw [List.foldl_cons, ih]; rfl

lemma foldl_merge1_text : ∀ (rest : List V2Question) (q : V2Question),
    (rest.foldl merge1 q).text = q.text ++ rest.flatMap (fun r => ' ' :: r.text) := by
  intro rest
  induction rest with
  | nil => intro q; simp
  | cons r rest ih =>
    intro q
    rw [List.foldl_cons, ih, List.flatMap_cons]
    show (q.text ++ ' ' :: r.text) ++ _ = _
    simp [List.append_assoc]

lemma foldl_merge1_parts : ∀ (rest : List V2Question) (q : V2Question),
    (rest.foldl merge1 q).parts = q.parts ++ rest.flatMap (·.parts) := by
  intro rest
  induction rest with
  | nil => intro q; simp
  | cons r rest ih =>
    intro q
    rw [List.foldl_cons, ih, List.flatMap_cons]
    show (q.parts ++ r.parts) ++ _ = _
    simp [List.append_assoc]

lemma foldl_merge1_diagrams : ∀ (rest : List V2Question) (q : V2Question),
    (rest.foldl merge1 q).diagrams = q.diagrams ++ rest.flatMap (·.diagrams) := by
  intro rest
  induction rest with
  | nil => intro q; simp
  | cons r rest ih =>
    intro q
    rw [List.foldl_cons, ih, List.flatMap_cons]
    show (q.diagrams ++ r.diagrams) ++ _ = _
    simp [List.append_assoc]

lemma foldl_merge1_marks : ∀ (rest : List V2Question) (q : V2Question),
    (rest.foldl merge1 q).marks = firstSome (q.marks :: rest.map (·.marks)) := by
  intro rest
  induction rest with
  | nil =>
    intro q
    show q.marks = firstSome (q.marks :: [])
    cases q.marks <;> rfl
  | cons r rest ih =>
    intro q
    rw [List.foldl_cons, ih, List.map_cons]
    cases hq : q.marks with
    | none =>
      show firstSome ((merge1 q r).marks :: _) = firstSome (none :: r.marks :: _)
      have : (merge1 q r).marks = r.marks := by
        show (match q.marks with | none => r.marks | some m => some m) = r.marks
        rw [hq]
      rw [this]
      rfl
    | some m =>
      show firstSome ((merge1 q r).marks :: _) = firstSome (some m :: r.marks :: _)
      have : (merge1 q r).marks = some m := by
        show (match q.marks with | none => r.marks | some m => some m) = some m
        rw [hq]
      rw [this]
      rfl

lemma foldl_merge1_hasDiagram : ∀ (rest : List V2Question) (q : V2Question),
    (rest.foldl merge1 q).hasDiagram = (q.hasDiagram || rest.any (·.hasDiagram)) := by
  intro rest
  induction rest with
  | nil => intro q; simp
  | cons r rest ih =>
    intro q
    rw [List.foldl_cons, ih, List.any_cons]
    show ((q.hasDiagram || r.hasDiagram) || rest.any (·.hasDiagram))
      = (q.hasDiagram || (r.hasDiagram || rest.any (·.hasDiagram)))
    rw [Bool.or_assoc]

lemma mergeGroup_append_singleton {g : List V2Question} (hne : g ≠ [])
    (q : V2Question) : mergeGroup (g ++ [q]) = merge1 (mergeGroup g) q := by
  cases g with
  | nil => exact absurd rfl hne
  | cons h rest =>
    show (rest ++ [q]).foldl merge1 h = merge1 (rest.foldl merge1 h) q
    rw [List.foldl_append]
    rfl

lemma mergeGroup_number {g : List V2Question} {k : List Char} (hne : g ≠ [])
    (hall : ∀ r ∈ g, r.number = k) : (mergeGroup g).number = k := by
  cases g with
  | nil => exact absurd rfl hne
  | cons h rest =>
    show (rest.foldl merge1 h).number = k
    rw [foldl_merge1_number]
    exact hall h (List.mem_cons_self _ _)

lemma keyGroup_number {qs : List V2Question} {k : List Char} :
    ∀ r ∈ keyGroup qs k, r.number = k := by
  intro r hr
  have := List.of_mem_filter hr
  exact eq_of_beq this

lemma keyGroup_ne_nil {qs : List V2Question} {k : List Char}
    (h : k ∈ qs.map (·.number)) : keyGroup qs k ≠ [] := by
  obtain ⟨r, hr, hk⟩ := List.mem_map.mp h
  intro hnil
  have : r ∈ keyGroup qs k := List.mem_filter.mpr ⟨hr, by rw [hk]; exact beq_self_eq_true k⟩
  rw [hnil] at this
  cases this

lemma keyGroup_append_singleton (l : List V2Question) (q : V2Question) (k : List Char) :
    keyGroup (l ++ [q]) k = keyGroup l k ++ (if q.number == k then [q] else []) := by
  unfold keyGroup
  rw [List.filter_append]
  congr 1
  rw [List.filter_cons, List.filter_nil]

/-- The cross-page merge builds exactly one record per question-number key, the
keys in first-encounter order, each record folding its key group in encounter
order. -/
lemma mergeQuestions_char (qs : List V2Question) :
    mergeQuestions qs =
      (firstDedup (qs.map (·.number))).map (fun k => mergeGroup (keyGroup qs k)) := by
  induction qs using List.reverseRecOn with
  | nil => rfl
  | append_singleton l q ih =>
    have hstep : mergeQuestions (l ++ [q]) = insertMerge (mergeQuestions l) q := by
      show (l ++ [q]).foldl insertMerge [] = _
      rw [List.foldl_append]
      rfl
    rw [hstep, ih, List.map_append, List.map_cons, List.map_nil,
      firstDedup_append_singleton]
    set K := firstDedup (l.map (·.number)) with hK
    have hKnum : ∀ k ∈ K, (mergeGroup (keyGroup l k)).number = k := by
      intro k hk
      have hk' : k ∈ l.map (·.number) := mem_firstDedup.mp hk
      exact mergeGroup_number (keyGroup_ne_nil hk') keyGroup_number
    by_cases hmem : q.number ∈ l.map (·.number)
    · rw [if_pos hmem]
      have hany : (K.map fun k => mergeGroup (keyGroup l k)).any
          (fun e => e.number == q.number) = true := by
        rw [List.any_eq_true]
        refine ⟨mergeGroup (keyGroup l q.number), List.mem_map_of_mem _
          (mem_firstDedup.mpr hmem), ?_⟩
        rw [hKnum q.number (mem_firstDedup.mpr hmem)]
        exact beq_self_eq_true _
      show insertMerge _ q = _
      unfold insertMerge
      rw [if_pos hany, List.map_map]
      refine List.map_congr_left ?_
      intro k hk
      show (if (mergeGroup (keyGroup l k)).number == q.number
        then merge1 (mergeGroup (keyGroup l k)) q else mergeGroup (keyGroup l k))
          = mergeGroup (keyGroup (l ++ [q]) k)
      rw [hKnum k hk, keyGroup_append_singleton]
      by_cases hkq : k = q.number
      · subst hkq
        rw [if_pos (beq_self_eq_true _), if_pos (beq_self_eq_true _),
          mergeGroup_append_singleton (keyGroup_ne_nil (mem_firstDedup.mp hk))]
      · rw [if_neg (by rw [beq_iff_eq]; exact hkq),
          if_neg (by rw [beq_iff_eq]; exact fun h => hkq h.symm), List.append_nil]
    · rw [if_neg hmem]
      have hany : (K.map fun k => mergeGroup (keyGroup l k)).any
          (fun e => e.number == q.number) = false := by
        rw [List.any_eq_false]
        rintro e he
        obtain ⟨k, hk, rfl⟩ := List.mem_map.mp he
        rw [hKnum k hk, beq_iff_eq]
        intro hkq
        exact hmem (hkq ▸ mem_firstDedup.mp hk)
      show insertMerge _ q = _
      unfold insertMerge
      rw [if_neg (by rw [hany]; exact Bool.false_ne_true), List.map_append,
        List.map_cons, List.map_nil]
      congr 1
      · refine List.map_congr_left ?_
        intro k hk
        rw [keyGroup_append_singleton,
          if_neg (by rw [beq_iff_eq]; intro h; exact hmem (h ▸ mem_firstDedup.mp hk)),
          List.append_nil]
      · rw [keyGroup_append_singleton, if_pos (beq_self_eq_true _)]
        have hempty : keyGroup l q.number = [] := by
          unfold keyGroup
          rw [List.filter_eq_nil_iff]
          intro r hr hbeq
          exact hmem (eq_of_beq hbeq ▸ List.mem_map_of_mem _ hr)
        rw [hempty, List.nil_append]
        rfl

lemma mergeGroup_text {g : List V2Question} (hne : g ≠ []) :
    (mergeGroup g).text = joinSp (g.map (·.text)) := by
  cases g with
  | nil => exact absurd rfl hne
  | cons h rest =>
    show (rest.foldl merge1 h).text = joinSp ((h :: rest).map (·.text))
    rw [foldl_merge1_text, List.map_cons]
    show _ = h.text ++ (rest.map (·.text)).flatMap (fun u => ' ' :: u)
    rw [List.flatMap_map]

lemma mergeGroup_parts {g : List V2Question} (hne : g ≠ []) :
    (mergeGroup g).parts = g.flatMap (·.parts) := by
  cases g with
  | nil => exact absurd rfl hne
  | cons h rest =>
    show (rest.foldl merge1 h).parts = (h :: rest).flatMap (·.parts)
    rw [foldl_merge1_parts, List.flatMap_cons]

lemma mergeGroup_diagrams {g : List V2Question} (hne : g ≠ []) :
    (mergeGroup g).diagrams = g.flatMap (·.diagrams) := by
  cases g with
  | nil => exact absurd rfl hne
  | cons h rest =>
    show (rest.foldl merge1 h).diagrams = (h :: rest).flatMap (·.diagrams)
    rw [foldl_merge1_diagrams, List.flatMap_cons]

lemma mergeGroup_marks {g : List V2Question} (hne : g ≠ []) :
    (mergeGroup g).marks = firstSome (g.map (·.marks)) := by
  cases g with
  | nil => exact absurd rfl hne
  | cons h rest =>
    show (rest.foldl merge1 h).marks = firstSome ((h :: rest).map (·.marks))
    rw [foldl_merge1_marks, List.map_cons]

/-- The key sequence of the merged output is the input key sequence with later
duplicates removed (first-encounter order). -/
lemma mergeQuestions_numbers (qs : List V2Question) :
    (mergeQuestions qs).map (·.number) = firstDedup (qs.map (·.number)) := by
  rw [mergeQuestions_char, List.map_map]
  have : ∀ k ∈ firstDedup (qs.map (·.number)),
      ((fun x => x.number) ∘ fun k => mergeGroup (keyGroup qs k)) k = id k := by
    intro k hk
    exact mergeGroup_number (keyGroup_ne_nil (mem_firstDedup.mp hk)) keyGroup_number
  rw [List.map_congr_left this, List.map_id]

/-- Every merged record is the fold of its key group. -/
lemma mergeQuestions_mem (qs : List V2Question) (q : V2Question)
    (hq : q ∈ mergeQuestions qs) :
    keyGroup qs q.number ≠ [] ∧ q = mergeGroup (keyGroup qs q.number) := by
  rw [mergeQuestions_char] at hq
  obtain ⟨k, hk, rfl⟩ := List.mem_map.mp hq
  have hne : keyGroup qs k ≠ [] := keyGroup_ne_nil (mem_firstDedup.mp hk)
  have hnum : (mergeGroup (keyGroup qs k)).number = k := mergeGroup_number hne keyGroup_number
  rw [hnum]
  exact ⟨hne, rfl⟩

/-- C4: the cross-page merge of `_save_questions` produces exactly one record
per question-number key, keys in first-encounter order; each merged record
combines its key group in encounter order with texts concatenated under a
single separating space, part lists concatenated, diagram lists concatenated
(deduplicated into a set later in the same method), and the first
non-`None` marks value kept. -/
theorem c4_merge (qs : List V2Question) (q : V2Question) (hq : q ∈ mergeQuestions qs) :
    keyGroup qs q.number ≠ [] ∧
    q = mergeGroup (keyGroup qs q.number) ∧
    q.text = joinSp ((keyGroup qs q.number).map (·.text)) ∧
    q.parts = (keyGroup qs q.number).flatMap (·.parts) ∧
    q.marks = firstSome ((keyGroup qs q.number).map (·.marks)) ∧
    q.diagrams = (keyGroup qs q.number).flatMap (·.diagrams) ∧
    (mergeQuestions qs).map (·.number) = firstDedup (qs.map (·.number)) := by
  obtain ⟨hne, hq'⟩ := mergeQuestions_mem qs q hq
  refine ⟨hne, hq', ?_, ?_, ?_, ?_, mergeQuestions_numbers qs⟩
  · conv_lhs => rw [hq']
    exact mergeGroup_text hne
  · conv_lhs => rw [hq']
    exact mergeGroup_parts hne
  · conv_lhs => rw [hq']
    exact mergeGroup_marks hne
  · conv_lhs => rw [hq']
    exact mergeGroup_diagrams hne

/-- C4, witness: the two fragments of question `7.` merge into the single
record `c4q` with the claimed text, marks and diagram combination. -/
theorem c4_merge_witness :
    c4q = mergeGroup (keyGroup [c7A, c7B] c4q.number) ∧
    c4q.text = joinSp ((keyGroup [c7A, c7B] c4q.number).map (·.text)) ∧
    c4q.marks = firstSome ((keyGroup [c7A, c7B] c4q.number).map (·.marks)) := by
  have h := c4_merge [c7A, c7B] c4q (by decide)
  exact ⟨h.2.1, h.2.2.1, h.2.2.2.2.1⟩

/-- C7, amended: the merge concatenates the part lists of a key group without
re-labelling, re-sorting or deduplicating, so the labels of a merged record are
exactly the concatenation of its group's labels — duplicate labels survive
(dropping only happens for empty-text parts in the later cleanup). -/
theorem c7_amended (qs : List V2Question) (q : V2Question) (hq : q ∈ mergeQuestions qs) :
    q.parts.map (·.label) =
      (keyGroup qs q.number).flatMap (fun r => r.parts.map (·.label)) := by
  obtain ⟨hne, hq'⟩ := mergeQuestions_mem qs q hq
  have hparts : q.parts = (keyGroup qs q.number).flatMap (·.parts) := by
    conv_lhs => rw [hq']
    exact mergeGroup_parts hne
  rw [hparts, List.map_flatMap]

/-- C7, witness for `c7_amended`: the merged record `c4q` keeps the duplicate
labels `a, a` of its two fragments. -/
theorem c7_amended_witness :
    c4q.parts.map (·.label) =
      (keyGroup [c7A, c7B] c4q.number).flatMap (fun r => r.parts.map (·.label)) :=
  c7_amended [c7A, c7B] c4q (by decide)

set_option maxRecDepth 100000 in
/-- C6, witness for `c6_amended`: with question `1.` finalized with zero parts
and no question open, `(a) continued text` is dropped with the two
diagnostics. -/
theorem c6_amended_witness :
    processLine c6State ("(a) continued text".data) =
      .ok { c6State with debug := c6State.debug ++
        ["Warning: Orphaned sub-question found: ".data
           ++ cleanText ("(a) continued text".data),
         "Could not attach orphaned part (".data ++ "a".data
           ++ ") to last question ".data ++ c6Q1.number] } :=
  (c6_amended c6State ("(a) continued text".data) ("a".data) ("continued text".data)
    rfl (by decide)).1 c6Q1 rfl rfl

/-! Decimal rendering and the parse/render roundtrip (claims C1, C9). -/

lemma natDigitsAux_congr : ∀ (n f₁ f₂ : Nat), n < f₁ → n < f₂ →
    natDigitsAux f₁ n = natDigitsAux f₂ n := by
  intro n
  induction n using Nat.strong_induction_on with
  | _ n ih =>
    intro f₁ f₂ h₁ h₂
    match f₁, f₂ with
    | f₁ + 1, f₂ + 1 =>
      show (if n < 10 then [digitChar n] else natDigitsAux f₁ (n / 10) ++ [digitChar (n % 10)])
        = (if n < 10 then [digitChar n] else natDigitsAux f₂ (n / 10) ++ [digitChar (n % 10)])
      by_cases hn : n < 10
      · rw [if_pos hn, if_pos hn]
      · rw [if_neg hn, if_neg hn]
        have hdiv : n / 10 < n := Nat.div_lt_self (by omega) (by omega)
        rw [ih (n / 10) hdiv f₁ f₂ (by omega) (by omega)]

lemma natDigits_unfold (n : Nat) :
    natDigits n = if n < 10 then [digitChar n]
      else natDigits (n / 10) ++ [digitChar (n % 10)] := by
  show natDigitsAux (n + 1) n = _
  show (if n < 10 then [digitChar n] else natDigitsAux n (n / 10) ++ [digitChar (n % 10)]) = _
  by_cases hn : n < 10
  · rw [if_pos hn, if_pos hn]
  · rw [if_neg hn, if_neg hn]
    have hdiv : n / 10 < n := Nat.div_lt_self (by omega) (by omega)
    rw [natDigitsAux_congr (n / 10) n (n / 10 + 1) (by omega) (by omega)]
    rfl

lemma digitChar_isDigit {n : Nat} (h : n < 10) : (digitChar n).isDigit = true := by
  interval_cases n <;> decide

lemma digitChar_toNat {n : Nat} (h : n < 10) : (digitChar n).toNat = 48 + n := by
  interval_cases n <;> decide

lemma natDigits_ne_nil (n : Nat) : natDigits n ≠ [] := by
  induction n using Nat.strong_induction_on with
  | _ n ih =>
    rw [natDigits_unfold]
    by_cases hn : n < 10
    · rw [if_pos hn]; exact List.cons_ne_nil _ _
    · rw [if_neg hn]; simp

lemma natDigits_all_digit : ∀ (n : Nat), ∀ c ∈ natDigits n, c.isDigit = true := by
  intro n
  induction n using Nat.strong_induction_on with
  | _ n ih =>
    intro c hc
    rw [natDigits_unfold] at hc
    by_cases hn : n < 10
    · rw [if_pos hn] at hc
      rcases List.mem_singleton.mp hc with rfl
      exact digitChar_isDigit hn
    · rw [if_neg hn] at hc
      rcases List.mem_append.mp hc with h | h
      · exact ih (n / 10) (Nat.div_lt_self (by omega) (by omega)) c h
      · rcases List.mem_singleton.mp h with rfl
        exact digitChar_isDigit (Nat.mod_lt n (by omega))

lemma readNat_aux : ∀ (n a : Nat),
    (natDigits n).foldl (fun a c => 10 * a + (c.toNat - 48)) a
      = a * 10 ^ (natDigits n).length + n := by
  intro n
  induction n using Nat.strong_induction_on with
  | _ n ih =>
    intro a
    rw [natDigits_unfold]
    by_cases hn : n < 10
    · rw [if_pos hn]
      show 10 * a + ((digitChar n).toNat - 48) = a * 10 ^ 1 + n
      rw [digitChar_toNat hn]
      omega
    · rw [if_neg hn]
      rw [List.foldl_append, ih (n / 10) (Nat.div_lt_self (by omega) (by omega)) a]
      show 10 * _ + ((digitChar (n % 10)).toNat - 48) = _
      rw [digitChar_toNat (Nat.mod_lt n (by omega))]
      rw [List.length_append, List.length_singleton]
      have hmod : 10 * (n / 10) + n % 10 = n := Nat.div_add_mod n 10
      calc 10 * (a * 10 ^ (natDigits (n / 10)).length + n / 10) + (48 + n % 10 - 48)
          = a * 10 ^ ((natDigits (n / 10)).length + 1) + (10 * (n / 10) + n % 10) := by ring_nf; omega
        _ = a * 10 ^ ((natDigits (n / 10)).length + 1) + n := by rw [hmod]

lemma readNat_natDigits (n : Nat) : readNat (natDigits n) = n := by
  show (natDigits n).foldl _ 0 = n
  rw [readNat_aux n 0]
  simp

lemma takeWhile_append_all {p : Char → Bool} :
    ∀ (l r : List Char), (∀ c ∈ l, p c = true) →
      (∀ c rest, r = c :: rest → p c = false) →
      (l ++ r).takeWhile p = l ∧ (l ++ r).dropWhile p = r := by
  intro l
  induction l with
  | nil =>
    intro r _ hr
    cases r with
    | nil => exact ⟨rfl, rfl⟩
    | cons c rest =>
      have hc := hr c rest rfl
      simp only [List.nil_append]
      exact ⟨List.takeWhile_cons_of_neg (by simp [hc]),
        List.dropWhile_cons_of_neg (by simp [hc])⟩
  | cons c l ih =>
    intro r hl hr
    have hc : p c = true := hl c (List.mem_cons_self _ _)
    obtain ⟨h1, h2⟩ := ih r (fun x hx => hl x (List.mem_cons_of_mem _ hx)) hr
    simp only [List.cons_append]
    exact ⟨by rw [List.takeWhile_cons_of_pos hc, h1],
      by rw [List.dropWhile_cons_of_pos hc, h2]⟩

/-- The parse/render roundtrip: a renumbered `question_number` parses back to
its components (the sub-part letter produced by a previous parse is always in
`[a-z]`). -/
lemma parseQNum_renderQNum (n : Nat) (p : Option Char)
    (hp : ∀ c, p = some c → isLowerAZ c = true) :
    parseQNum (renderQNum n p) = some (n, p) := by
  cases p with
  | none =>
    obtain ⟨htake, hdrop⟩ := takeWhile_append_all (p := Char.isDigit)
      (natDigits n) ['.'] (natDigits_all_digit n)
      (by intro c rest h; cases h; decide)
    show parseQNum (natDigits n ++ ['.']) = some (n, none)
    unfold parseQNum
    rw [htake, hdrop]
    rw [if_neg (by simp [natDigits_ne_nil n])]
    dsimp only
    rw [if_pos rfl, readNat_natDigits]
    rfl
  | some c =>
    have hc : isLowerAZ c = true := hp c rfl
    obtain ⟨htake, hdrop⟩ := takeWhile_append_all (p := Char.isDigit)
      (natDigits n) ('.' :: [' ', '(', c, ')']) (natDigits_all_digit n)
      (by intro c rest h; cases h; decide)
    show parseQNum (natDigits n ++ '.' :: [' ', '(', c, ')']) = some (n, some c)
    unfold parseQNum
    rw [htake, hdrop]
    rw [if_neg (by simp [natDigits_ne_nil n])]
    dsimp only
    rw [if_pos rfl, readNat_natDigits]
    have hdw : ([' ', '(', c, ')'] : List Char).dropWhile pyIsSpace = ['(', c, ')'] := by
      rw [List.dropWhile_cons_of_pos (by decide), List.dropWhile_cons_of_neg (by decide)]
    rw [hdw]
    dsimp only
    rw [if_pos ⟨rfl, rfl, hc⟩]

/-! Structure of the renumbered output (claims C1, C9). -/

lemma parseQNum_lower {cs : List Char} {m : Nat} {c : Char}
    (h : parseQNum cs = some (m, some c)) : isLowerAZ c = true := by
  simp only [parseQNum] at h
  split at h
  · exact Option.noConfusion h
  · split at h
    · exact Option.noConfusion h
    · split at h
      · split at h
        · split at h
          · rename_i hcond
            simp only [Option.some.injEq, Prod.mk.injEq, Option.some.injEq] at h
            rw [← h.2]
            exact hcond.2.2
          · simp only [Option.some.injEq, Prod.mk.injEq] at h
            exact absurd h.2 (by simp)
        · simp only [Option.some.injEq, Prod.mk.injEq] at h
          exact absurd h.2 (by simp)
      · exact Option.noConfusion h

lemma parseTag_valid {α : Type} {qs : List (PQ α)} {t : QTag α}
    (ht : t ∈ qs.filterMap parseTag) :
    ∀ c, t.2.1 = some c → isLowerAZ c = true := by
  intro c hc
  obtain ⟨q, _, hq⟩ := List.mem_filterMap.mp ht
  unfold parseTag at hq
  rcases Option.map_eq_some'.mp hq with ⟨mp, hmp, heq⟩
  have h21 : t.2.1 = mp.2 := by rw [← heq]
  rw [h21] at hc
  exact parseQNum_lower (by rw [hmp, ← hc])

lemma parseTag_renumQ {α : Type} (n : Nat) (t : QTag α)
    (hv : ∀ c, t.2.1 = some c → isLowerAZ c = true) :
    parseTag (renumQ n t) = some (n, t.2.1, renumQ n t) := by
  unfold parseTag
  have hnum : (renumQ n t).number = renderQNum n t.2.1 := rfl
  rw [hnum, parseQNum_renderQNum n t.2.1 hv]
  rfl

lemma filterMap_eq_map_of {β γ : Type} {f : β → Option γ} {g : β → γ} :
    ∀ {l : List β}, (∀ x ∈ l, f x = some (g x)) → l.filterMap f = l.map g := by
  intro l
  induction l with
  | nil => intro _; rfl
  | cons x xs ih =>
    intro h
    rw [List.filterMap_cons, h x (List.mem_cons_self _ _), List.map_cons,
      ih fun y hy => h y (List.mem_cons_of_mem _ hy)]

lemma mem_sort_filter_valid {α : Type} {parsed : List (QTag α)} {k : Nat}
    (hval : ∀ t ∈ parsed, ∀ c, t.2.1 = some c → isLowerAZ c = true) :
    ∀ t ∈ List.insertionSort tagLe (parsed.filter fun t => t.1 == k),
      ∀ c, t.2.1 = some c → isLowerAZ c = true := by
  intro t ht
  have : t ∈ parsed.filter fun t => t.1 == k := (List.mem_insertionSort tagLe).mp ht
  exact hval t (List.mem_filter.mp this).1

lemma tags_renumberGroups {α : Type} {parsed : List (QTag α)}
    (hval : ∀ t ∈ parsed, ∀ c, t.2.1 = some c → isLowerAZ c = true) :
    ∀ (ks : List Nat) (n : Nat),
      (renumberGroups parsed ks n).filterMap parseTag = renumTags parsed ks n := by
  intro ks
  induction ks with
  | nil => intro n; rfl
  | cons k ks ih =>
    intro n
    show (List.map (renumQ n) (List.insertionSort tagLe (parsed.filter fun t => t.1 == k))
        ++ renumberGroups parsed ks (n + 1)).filterMap parseTag = _
    rw [List.filterMap_append, List.filterMap_map, ih (n + 1)]
    show List.filterMap (fun t => parseTag (renumQ n t)) _ ++ _ = _
    rw [filterMap_eq_map_of (g := fun t => (n, t.2.1, renumQ n t))
      (fun t ht => parseTag_renumQ n t (mem_sort_filter_valid hval t ht))]
    rfl

lemma renumTags_fst_ge {α : Type} {parsed : List (QTag α)} :
    ∀ (ks : List Nat) (n : Nat) (t : QTag α), t ∈ renumTags parsed ks n → n ≤ t.1 := by
  intro ks
  induction ks with
  | nil => intro n t ht; cases ht
  | cons k ks ih =>
    intro n t ht
    rcases List.mem_append.mp ht with h | h
    · obtain ⟨u, _, rfl⟩ := List.mem_map.mp h
      exact Nat.le_refl n
    · exact Nat.le_of_succ_le (ih (n + 1) t h)

instance {α : Type} : IsTotal (QTag α) tagLe := by
  constructor
  intro a b
  unfold tagLe
  cases ha : a.2.1 with
  | none => left; rfl
  | some x =>
    cases hb : b.2.1 with
    | none => right; rfl
    | some y =>
      show (decide (x ≤ y) = true) ∨ (decide (y ≤ x) = true)
      rcases le_total x y with h | h
      · left; exact decide_eq_true h
      · right; exact decide_eq_true h

instance {α : Type} : IsTrans (QTag α) tagLe := by
  constructor
  intro a b c hab hbc
  unfold tagLe at *
  cases ha : a.2.1 with
  | none => rfl
  | some x =>
    rw [ha] at hab
    cases hb : b.2.1 with
    | none => rw [hb] at hab; exact absurd hab (by simp [subKeyLe])
    | some y =>
      rw [hb] at hab hbc
      cases hc : c.2.1 with
      | none => rw [hc] at hbc; exact absurd hbc (by simp [subKeyLe])
      | some z =>
        rw [hc] at hbc
        show decide (x ≤ z) = true
        have hxy : x ≤ y := of_decide_eq_true hab
        have hyz : y ≤ z := of_decide_eq_true hbc
        exact decide_eq_true (le_trans hxy hyz)

lemma sorted_tags_map {α : Type} {l : List (QTag α)} (n : Nat)
    (h : List.Sorted tagLe l) :
    List.Sorted tagLe (l.map fun t => (n, t.2.1, renumQ n t)) := by
  exact List.Pairwise.map _ (fun a b hab => hab) h

lemma renumQ_retag {α : Type} (n : Nat) (t : QTag α) :
    renumQ n ((n, t.2.1, renumQ n t) : QTag α) = renumQ n t := rfl

lemma firstDedupAux_cons_mem {β : Type} [DecidableEq β] {seen : List β} {k : β}
    (h : k ∈ seen) (ks : List β) :
    firstDedupAux seen (k :: ks) = firstDedupAux seen ks := by
  unfold firstDedupAux
  rw [if_pos h]
  cases ks <;> rfl

lemma firstDedupAux_cons_not_mem {β : Type} [DecidableEq β] {seen : List β} {k : β}
    (h : k ∉ seen) (ks : List β) :
    firstDedupAux seen (k :: ks) = k :: firstDedupAux (k :: seen) ks := by
  unfold firstDedupAux
  rw [if_neg h]
  cases ks <;> rfl

lemma firstDedupAux_replicate_mem {β : Type} [DecidableEq β] {x : β} :
    ∀ (m : Nat) (seen l : List β), x ∈ seen →
      firstDedupAux seen (List.replicate m x ++ l) = firstDedupAux seen l := by
  intro m
  induction m with
  | zero => intro seen l _; rfl
  | succ m ih =>
    intro seen l hx
    rw [List.replicate_succ, List.cons_append, firstDedupAux_cons_mem hx]
    exact ih seen l hx

lemma firstDedupAux_replicate {β : Type} [DecidableEq β] {x : β} (m : Nat)
    (seen l : List β) (hx : x ∉ seen) :
    firstDedupAux seen (List.replicate (m + 1) x ++ l)
      = x :: firstDedupAux (x :: seen) l := by
  rw [List.replicate_succ, List.cons_append, firstDedupAux_cons_not_mem hx,
    firstDedupAux_replicate_mem m _ _ (List.mem_cons_self _ _)]

lemma firstDedupAux_seen_congr {β : Type} [DecidableEq β] :
    ∀ (l seen₁ seen₂ : List β), (∀ x ∈ l, (x ∈ seen₁ ↔ x ∈ seen₂)) →
      firstDedupAux seen₁ l = firstDedupAux seen₂ l := by
  intro l
  induction l with
  | nil => intro _ _ _; rfl
  | cons k ks ih =>
    intro seen₁ seen₂ hiff
    have hk := hiff k (List.mem_cons_self _ _)
    by_cases h1 : k ∈ seen₁
    · rw [firstDedupAux_cons_mem h1, firstDedupAux_cons_mem (hk.mp h1)]
      exact ih _ _ fun x hx => hiff x (List.mem_cons_of_mem _ hx)
    · rw [firstDedupAux_cons_not_mem h1,
        firstDedupAux_cons_not_mem (fun h2 => h1 (hk.mpr h2))]
      refine congrArg (k :: ·) (ih _ _ fun x hx => ?_)
      simp only [List.mem_cons]
      have := hiff x (List.mem_cons_of_mem _ hx)
      tauto

lemma renumberGroups_append_left {α : Type} :
    ∀ (ks : List Nat) (pre post : List (QTag α)) (n : Nat),
      (∀ t ∈ pre, t.1 ∉ ks) →
      renumberGroups (pre ++ post) ks n = renumberGroups post ks n := by
  intro ks
  induction ks with
  | nil => intro pre post n _; rfl
  | cons k ks ih =>
    intro pre post n h
    show (List.insertionSort tagLe ((pre ++ post).filter fun t => t.1 == k)).map (renumQ n)
        ++ renumberGroups (pre ++ post) ks (n + 1)
      = (List.insertionSort tagLe (post.filter fun t => t.1 == k)).map (renumQ n)
        ++ renumberGroups post ks (n + 1)
    have hpre : pre.filter (fun t => t.1 == k) = [] := by
      rw [List.filter_eq_nil_iff]
      intro t ht
      simp only [beq_iff_eq]
      intro hk
      exact h t ht (hk ▸ List.mem_cons_self _ _)
    rw [List.filter_append, hpre, List.nil_append,
      ih pre post (n + 1) (fun t ht hk => h t ht (List.mem_cons_of_mem _ hk))]

lemma secondRun_eq {α : Type} :
    ∀ (ks : List Nat) (parsed : List (QTag α)) (n : Nat),
      (∀ t ∈ parsed, ∀ c, t.2.1 = some c → isLowerAZ c = true) →
      (∀ k ∈ ks, parsed.filter (fun t => t.1 == k) ≠ []) →
      renumberGroups ((renumberGroups parsed ks n).filterMap parseTag)
        (List.insertionSort (· ≤ ·)
          (firstDedup (((renumberGroups parsed ks n).filterMap parseTag).map (·.1)))) n
        = renumberGroups parsed ks n := by
  intro ks
  induction ks with
  | nil => intro parsed n _ _; rfl
  | cons k ks ih =>
    intro parsed n hval hks
    rw [tags_renumberGroups hval (k :: ks) n]
    have hT : renumTags parsed (k :: ks) n
        = (List.insertionSort tagLe (parsed.filter fun t => t.1 == k)).map
            (fun t => (n, t.2.1, renumQ n t))
          ++ renumTags parsed ks (n + 1) := rfl
    set sortG := List.insertionSort tagLe (parsed.filter fun t => t.1 == k) with hsortG
    set tagsB := sortG.map (fun t => (n, t.2.1, renumQ n t)) with htagsB
    set T' := renumTags parsed ks (n + 1) with hT'
    rw [hT]
    -- the main-number multiset: a non-empty block of `n`, then numbers ≥ n+1
    have hlen : ∃ m, sortG.length = m + 1 := by
      have hG : parsed.filter (fun t => t.1 == k) ≠ [] := hks k (List.mem_cons_self _ _)
      have : sortG.length = (parsed.filter fun t => t.1 == k).length := by
        rw [hsortG, List.length_insertionSort]
      cases hL : sortG.length with
      | zero =>
        rw [hL] at this
        exact absurd (List.eq_nil_of_length_eq_zero this.symm) hG
      | succ m => exact ⟨m, rfl⟩
    obtain ⟨m, hm⟩ := hlen
    have hfstB : tagsB.map (·.1) = List.replicate (m + 1) n := by
      rw [htagsB, List.map_map]
      show sortG.map (fun _ => n) = _
      rw [List.map_const', hm]
    have hfstT : ∀ x ∈ T'.map (·.1), n + 1 ≤ x := by
      intro x hx
      obtain ⟨t, ht, rfl⟩ := List.mem_map.mp hx
      exact renumTags_fst_ge ks (n + 1) t ht
    have hkeys : firstDedup ((tagsB ++ T').map (·.1))
        = n :: firstDedup (T'.map (·.1)) := by
      rw [List.map_append, hfstB]
      show firstDedupAux [] _ = _
      rw [firstDedupAux_replicate m [] _ (List.not_mem_nil n)]
      refine congrArg (n :: ·) (firstDedupAux_seen_congr _ [n] [] fun x hx => ?_)
      simp only [List.mem_cons, List.not_mem_nil, or_false, iff_false]
      intro hxn
      have := hfstT x hx
      omega
    have hsortKeys : List.insertionSort (· ≤ ·) (n :: firstDedup (T'.map (·.1)))
        = n :: List.insertionSort (· ≤ ·) (firstDedup (T'.map (·.1))) := by
      refine List.insertionSort_cons _ fun b hb => ?_
      have : b ∈ T'.map (·.1) := mem_firstDedup.mp hb
      have := hfstT b this
      omega
    rw [hkeys, hsortKeys]
    show (List.insertionSort tagLe ((tagsB ++ T').filter fun t => t.1 == n)).map (renumQ n)
        ++ renumberGroups (tagsB ++ T')
            (List.insertionSort (· ≤ ·) (firstDedup (T'.map (·.1)))) (n + 1)
      = sortG.map (renumQ n) ++ renumberGroups parsed ks (n + 1)
    have hfiltB : tagsB.filter (fun t => t.1 == n) = tagsB := by
      rw [List.filter_eq_self]
      intro t ht
      obtain ⟨u, _, rfl⟩ := List.mem_map.mp ht
      exact beq_self_eq_true n
    have hfiltT : T'.filter (fun t => t.1 == n) = [] := by
      rw [List.filter_eq_nil_iff]
      intro t ht
      have := renumTags_fst_ge ks (n + 1) t ht
      simp only [beq_iff_eq]
      omega
    have hsorted : List.Sorted tagLe tagsB := by
      rw [htagsB]
      exact sorted_tags_map n (List.sorted_insertionSort tagLe _)
    have hmapB : tagsB.map (renumQ n) = sortG.map (renumQ n) := by
      rw [htagsB, List.map_map]
      exact List.map_congr_left fun t _ => renumQ_retag n t
    rw [List.filter_append, hfiltB, hfiltT, List.append_nil,
      List.Sorted.insertionSort_eq hsorted, hmapB]
    congr 1
    have hpre : ∀ t ∈ tagsB,
        t.1 ∉ List.insertionSort (· ≤ ·) (firstDedup (T'.map (·.1))) := by
      intro t ht hmem
      obtain ⟨u, _, rfl⟩ := List.mem_map.mp ht
      have : n ∈ firstDedup (T'.map (·.1)) :=
        ((List.perm_insertionSort _ _).mem_iff).mp hmem
      have := hfstT n (mem_firstDedup.mp this)
      omega
    rw [renumberGroups_append_left _ tagsB T' (n + 1) hpre]
    have hksTail : ∀ k' ∈ ks, parsed.filter (fun t => t.1 == k') ≠ [] :=
      fun k' hk' => hks k' (List.mem_cons_of_mem _ hk')
    have hih := ih parsed (n + 1) hval hksTail
    rw [tags_renumberGroups hval ks (n + 1)] at hih
    exact hih

/-- C9: `_fix_question_numbering` is idempotent — renumbering an
already-renumbered list reproduces it exactly (same order, same numbers, same
records). -/
theorem c9_idempotent {α : Type} (qs : List (PQ α)) :
    fixQuestionNumbering (fixQuestionNumbering qs) = fixQuestionNumbering qs := by
  have hval : ∀ t ∈ qs.filterMap parseTag, ∀ c, t.2.1 = some c → isLowerAZ c = true :=
    fun t ht => parseTag_valid ht
  have hks : ∀ k ∈ List.insertionSort (· ≤ ·)
      (firstDedup ((qs.filterMap parseTag).map (·.1))),
      (qs.filterMap parseTag).filter (fun t => t.1 == k) ≠ [] := by
    intro k hk
    have hk1 : k ∈ firstDedup ((qs.filterMap parseTag).map (·.1)) :=
      ((List.perm_insertionSort _ _).mem_iff).mp hk
    obtain ⟨t, ht, rfl⟩ := List.mem_map.mp (mem_firstDedup.mp hk1)
    intro hnil
    have : t ∈ (qs.filterMap parseTag).filter (fun t' => t'.1 == t.1) :=
      List.mem_filter.mpr ⟨ht, beq_self_eq_true t.1⟩
    rw [hnil] at this
    cases this
  exact secondRun_eq _ (qs.filterMap parseTag) 1 hval hks

lemma renumberGroups_structure {α : Type} :
    ∀ (ks : List Nat) (parsed : List (QTag α)) (n : Nat),
      (∀ t ∈ parsed, ∀ c, t.2.1 = some c → isLowerAZ c = true) →
      (∀ k ∈ ks, parsed.filter (fun t => t.1 == k) ≠ []) →
      ∃ gs : List (List (PQ α)),
        renumberGroups parsed ks n = gs.flatten ∧
        (∀ g ∈ gs, g ≠ []) ∧
        ∀ i (h : i < gs.length), ∀ q ∈ gs.get ⟨i, h⟩,
          (parseQNum q.number).map (·.1) = some (n + i) := by
  intro ks
  induction ks with
  | nil =>
    intro parsed n _ _
    exact ⟨[], rfl, by simp, fun i h => absurd h (by simp)⟩
  | cons k ks ih =>
    intro parsed n hval hks
    obtain ⟨gs, hflat, hne, hnum⟩ := ih parsed (n + 1) hval
      (fun k' hk' => hks k' (List.mem_cons_of_mem _ hk'))
    set B := (List.insertionSort tagLe (parsed.filter fun t => t.1 == k)).map (renumQ n)
      with hB
    refine ⟨B :: gs, ?_, ?_, ?_⟩
    · show _ ++ renumberGroups parsed ks (n + 1) = B ++ gs.flatten
      rw [hflat]
    · intro g hg
      rcases List.mem_cons.mp hg with rfl | hg
      · rw [hB]
        intro hnil
        have hGne : parsed.filter (fun t => t.1 == k) ≠ [] :=
          hks k (List.mem_cons_self _ _)
        have hsort : List.insertionSort tagLe (parsed.filter fun t => t.1 == k) = [] := by
          rcases List.map_eq_nil_iff.mp hnil with h
          exact h
        have hlen : (parsed.filter fun t => t.1 == k).length = 0 := by
          rw [← List.length_insertionSort tagLe, hsort]
          rfl
        exact hGne (List.eq_nil_of_length_eq_zero hlen)
      · exact hne g hg
    · intro i h q hq
      cases i with
      | zero =>
        have hq' : q ∈ B := hq
        rw [hB] at hq'
        obtain ⟨t, ht, rfl⟩ := List.mem_map.mp hq'
        have hv := mem_sort_filter_valid (k := k) hval t ht
        have : parseQNum (renumQ n t).number = some (n, t.2.1) :=
          parseQNum_renderQNum n t.2.1 hv
        rw [this]
        rfl
      | succ i =>
        have h' : i < gs.length := by
          have := h
          simpa using this
        have hq' : q ∈ gs.get ⟨i, h'⟩ := hq
        have := hnum i h' q hq'
        rw [this]
        exact congrArg some (by omega)

/-- C1, counterexample: on detected numbers `3., 3., 1.` the renumbered output
carries main numbers `1, 2, 2` — the duplicate keeps one shared new number, so
the sequence is not strictly increasing by exactly 1 — and the records are
emitted sorted by detected number (`1.` first), not in finalization order. -/
theorem c1_counterexample :
    ¬ (mainsOf (fixQuestionNumbering c1Ex) =
          List.range' 1 (mainsOf (fixQuestionNumbering c1Ex)).length ∧
        payloadsOf (fixQuestionNumbering c1Ex) = payloadsOf c1Ex) := by
  decide

/-- C1, amended: after `_fix_question_numbering` the output is a concatenation
of non-empty groups in which every record of the `i`-th group (0-based) parses
to main number `i + 1`: the distinct main numbers are exactly `1, 2, …, k` in
order, duplicates of a detected number staying within one group, while the
groups are ordered by detected main number rather than by finalization
order. -/
theorem c1_amended {α : Type} (qs : List (PQ α)) :
    ∃ gs : List (List (PQ α)),
      fixQuestionNumbering qs = gs.flatten ∧
      (∀ g ∈ gs, g ≠ []) ∧
      ∀ i (h : i < gs.length), ∀ q ∈ gs.get ⟨i, h⟩,
        (parseQNum q.number).map (·.1) = some (1 + i) := by
  have hval : ∀ t ∈ qs.filterMap parseTag, ∀ c, t.2.1 = some c → isLowerAZ c = true :=
    fun t ht => parseTag_valid ht
  have hks : ∀ k ∈ List.insertionSort (· ≤ ·)
      (firstDedup ((qs.filterMap parseTag).map (·.1))),
      (qs.filterMap parseTag).filter (fun t => t.1 == k) ≠ [] := by
    intro k hk
    have hk1 : k ∈ firstDedup ((qs.filterMap parseTag).map (·.1)) :=
      ((List.perm_insertionSort _ _).mem_iff).mp hk
    obtain ⟨t, ht, rfl⟩ := List.mem_map.mp (mem_firstDedup.mp hk1)
    intro hnil
    have : t ∈ (qs.filterMap parseTag).filter (fun t' => t'.1 == t.1) :=
      List.mem_filter.mpr ⟨ht, beq_self_eq_true t.1⟩
    rw [hnil] at this
    cases this
  exact renumberGroups_structure _ (qs.filterMap parseTag) 1 hval hks

/-- C1, witness for `c1_amended` at the concrete input `c1Ex`. -/
theorem c1_amended_witness :
    ∃ gs : List (List (PQ Nat)),
      fixQuestionNumbering c1Ex = gs.flatten ∧
      (∀ g ∈ gs, g ≠ []) ∧
      ∀ i (h : i < gs.length), ∀ q ∈ gs.get ⟨i, h⟩,
        (parseQNum q.number).map (·.1) = some (1 + i) :=
  c1_amended c1Ex
